import Mathlib

/-!
Verification development for the p-dispersion solver repository
(src/lib.rs, src/core.rs, src/naive.rs).

Modelling conventions.

Numbers: the source computes with `f32` coordinates and distances, and the
solver consumes distances only through order comparisons (`<=` against a
threshold, `sort_by(f32::total_cmp)`).  Real square roots are strictly
monotone, and `f32` rounding of a monotone function is monotone, so replacing
every `sqrt((dx)^2+(dy)^2)` by the exact squared distance
`(dx)^2 + (dy)^2` in an ordered commutative ring gives an order-faithful
embedding of the distance data actually compared by the algorithm.  All
definitions are polymorphic in a `LinearOrderedCommRing Q`; concrete
evaluations instantiate `Q := Int` at inputs whose `f32` arithmetic is exact
(small integer grids), where the embedding agrees with the source bit for bit
at the level of every comparison the program performs.

Machine integers: `u32`/`u64` words become `Nat` together with the invariant
`word < 2^32` (resp. `2^64`); `&`, `|`, `^` and `!x` become `Nat.land`,
`Nat.lor`, `Nat.xor` and `Nat.xor x mask` with the all-ones mask of the
word width.  `count_ones` and `trailing_zeros` are modelled by structurally
recursive functions driven by a fuel equal to the word width, which makes
them exact on all values below `2^width`.

Partiality: Rust panics (`expect`, `assert!`, out-of-bounds indexing,
arithmetic overflow) are modelled by `Except.error` with the corresponding
message; `Option`-valued search results stay `Option` inside `Except.ok`.
Recursive functions whose Rust termination argument is a decreasing data
measure take an explicit fuel argument; the callers pass a fuel proven (or,
for loops, sized) large enough, and running out of fuel is a distinguished
`Except.error` that the lemmas below rule out on the source call pattern.
-/

set_option maxHeartbeats 1000000

/-! ## Generic machine-word helpers -/

/-- Fuel-driven population count: `goCount w x` is the number of set bits of
`x` provided `x < 2^w`.  Models `u32::count_ones` / `u64::count_ones` with
`w` the word width. -/
def goCount : Nat → Nat → Nat
  | 0, _ => 0
  | f + 1, x => if x = 0 then 0 else x % 2 + goCount f (x / 2)

/-- Fuel-driven count of trailing zeros: `goCtz w x` is the index of the
lowest set bit of `x` when `0 < x < 2^w`, and `w` when `x = 0`.  Models
`u32::trailing_zeros` / `u64::trailing_zeros`. -/
def goCtz : Nat → Nat → Nat
  | 0, _ => 0
  | f + 1, x => if x % 2 = 1 then 0 else 1 + goCtz f (x / 2)

/-- Bit `j` of a list of `w`-bit words viewed as one long bit vector
(word `j / w`, bit `j % w`). -/
def bitAt (w : Nat) (data : List Nat) (j : Nat) : Bool :=
  (data.getD (j / w) 0).testBit (j % w)

/-! ## Shared geometry layer (`Point` in src/lib.rs, re-declared in
src/core.rs and src/naive.rs through `impl Point`) -/

/-- Model of `struct Point { x: f32, y: f32 }`. -/
structure Point (Q : Type) where
  x : Q
  y : Q
deriving DecidableEq

/-- Model of `Point::get_distance`.  The source returns
`((dx)^2 + (dy)^2).sqrt()`; we keep the squared distance, which is
order-isomorphic to it (see the header comment). -/
def Point.get_distance_sq {Q : Type} [LinearOrderedCommRing Q] (p q : Point Q) : Q :=
  (p.x - q.x) * (p.x - q.x) + (p.y - q.y) * (p.y - q.y)

/-- The `n x n` distance table built by `p_solver` / `solve_p_dispersion` /
`naive_solver` (`PointData::distance_matrix` after the fill loops):
`distance[i][j] = dist(point_i, point_j)`. -/
def distance_matrix {Q : Type} [LinearOrderedCommRing Q] (location : List (Point Q)) :
    List (List Q) :=
  location.map (fun a => location.map (fun b => a.get_distance_sq b))

/-! ## Embedding of src/core.rs -/

namespace Core

/-- All-ones mask of a `u32`; `!x` on `u32` is `Nat.xor x u32max`. -/
def u32max : Nat := 2 ^ 32 - 1

/-- Model of `u32::count_ones`. -/
def countOnes32 (x : Nat) : Nat := goCount 32 x

/-- Model of `u32::trailing_zeros`. -/
def ctz32 (x : Nat) : Nat := goCtz 32 x

/-- Model of `struct PointVec { data: Vec<u32>, true_count: usize }`. -/
structure PointVec where
  data : List Nat
  true_count : Nat
deriving DecidableEq

/-- Replace the last element of a list (models `last_mut()` updates; the
source only calls it on nonempty vectors). -/
def modifyLast (f : Nat → Nat) : List Nat → List Nat
  | [] => []
  | [a] => [f a]
  | a :: b :: rest => a :: modifyLast f (b :: rest)

/-- Model of `PointVec::new`.  `sector_count = n/32 + (n % 32 != 0)`; a
filled vector is all-ones with the last word masked by `2^(n%32) - 1`
when `n` is not a multiple of 32. -/
def PointVec.new (location_count : Nat) (fill : Bool) : PointVec :=
  let sector_count := location_count / 32 + (if location_count % 32 = 0 then 0 else 1)
  if fill then
    { data :=
        if location_count % 32 = 0 then List.replicate sector_count u32max
        else
          modifyLast (fun last => last &&& (2 ^ (location_count % 32) - 1))
            (List.replicate sector_count u32max),
      true_count := location_count }
  else { data := List.replicate sector_count 0, true_count := 0 }

/-- Model of `PointVec::reset`: refills the existing words in place. -/
def PointVec.reset (v : PointVec) (location_count : Nat) (fill : Bool) : PointVec :=
  if fill then
    { data :=
        if location_count % 32 = 0 then v.data.map (fun _ => u32max)
        else
          modifyLast (fun last => last &&& (2 ^ (location_count % 32) - 1))
            (v.data.map (fun _ => u32max)),
      true_count := location_count }
  else { data := v.data.map (fun _ => 0), true_count := 0 }

/-- Model of `PointVec::len`. -/
def PointVec.len (v : PointVec) : Nat := v.true_count

/-- Model of `PointVec::copy`: `zip(self.data.iter_mut(), copy_src.data.iter())`
overwrites the common prefix of `self.data` (the tail beyond `copy_src` is
left unchanged), and the cardinality is taken from the source. -/
def PointVec.copy (v copy_src : PointVec) : PointVec :=
  { data := (v.data.zipWith (fun _lhs rhs => rhs) copy_src.data) ++
      v.data.drop copy_src.data.length,
    true_count := copy_src.true_count }

/-- Model of `PointVec::next`: position of the first nonzero word, plus its
trailing-zero count. -/
def PointVec.next (v : PointVec) : Option Nat :=
  (v.data.findIdx? (fun value => value != 0)).map
    (fun index => 32 * index + ctz32 (v.data.getD index 0))

/-- Model of `PointVec::subtract`: `*lhs &= !rhs` word by word over the
zipped prefix, recomputing `true_count` as the sum of the resulting
popcounts in the same pass. -/
def PointVec.subtract (v rhs : PointVec) : PointVec :=
  let pairs := v.data.zipWith (fun lhs r => lhs &&& (r ^^^ u32max)) rhs.data
  { data := pairs ++ v.data.drop rhs.data.length,
    true_count := (pairs.map countOnes32).sum }

/-- Model of `PointVec::remove`.  The source indexes `data[sector]`
unconditionally; every call site proved below keeps `index` within
capacity, where `getD`/`set` coincide with the panicking Rust indexing. -/
def PointVec.remove (v : PointVec) (index : Nat) : PointVec :=
  let sector := index / 32
  let bitmask := 2 ^ (index % 32)
  { data := v.data.set sector (v.data.getD sector 0 &&& (bitmask ^^^ u32max)),
    true_count :=
      v.true_count - (if v.data.getD sector 0 &&& bitmask = bitmask then 1 else 0) }

/-- Model of `PointVec::insert` (same indexing remark as `remove`). -/
def PointVec.insert (v : PointVec) (index : Nat) : PointVec :=
  let sector := index / 32
  let bitmask := 2 ^ (index % 32)
  { data := v.data.set sector (v.data.getD sector 0 ||| bitmask),
    true_count :=
      v.true_count + (if v.data.getD sector 0 &&& bitmask = bitmask then 0 else 1) }

/-- Fuel-driven extraction of the set bits of one word, low to high: models
the `while value > 0 { push(index*32 + tz); value ^= 1 << tz }` loop of
`From<PointVec> for Box<[usize]>`.  32 fuel suffices for any `u32`. -/
def goWordBits : Nat → Nat → Nat → List Nat
  | 0, _, _ => []
  | f + 1, base, value =>
    if value = 0 then []
    else (base + ctz32 value) :: goWordBits f base (value ^^^ 2 ^ ctz32 value)

/-- Model of `From<PointVec> for Box<[usize]>`: scan the nonzero words and
extract bit positions low to high. -/
def pointVecToList (val : PointVec) : List Nat :=
  ((val.data.enum.filter (fun iv => iv.2 != 0)).map
    (fun iv => goWordBits 32 (32 * iv.1) iv.2)).flatten

/-- Model of `struct AdjacencyMatrix { data: Vec<PointVec> }`. -/
structure AdjacencyMatrix where
  data : List PointVec
deriving DecidableEq

/-- Default row used to model the (never out-of-bounds, proved below)
indexing `adjacency_matrix.data[point]`. -/
def emptyRow : PointVec := { data := [], true_count := 0 }

/-- Model of `AdjacencyMatrix::new`: row `index` collects every `point`
whose distance to `index` is `<= neighbour_distance`. -/
def AdjacencyMatrix.new {Q : Type} [LinearOrderedCommRing Q] (location_count : Nat)
    (dm : List (List Q)) (neighbour_distance : Q) : AdjacencyMatrix :=
  { data := (List.range location_count).map (fun index =>
      ((dm.getD index []).enum).foldl
        (fun row pd => if pd.2 ≤ neighbour_distance then row.insert pd.1 else row)
        (PointVec.new location_count false)) }

/-- Model of `struct SolveData`. -/
structure SolveData where
  selected_points : PointVec
  remaining_points : PointVec
deriving DecidableEq

/-- Model of `SolveData::new` (also the value of an arena slot right after
`SolveStack::reset`). -/
def SolveData.new (location_count : Nat) : SolveData :=
  { selected_points := PointVec.new location_count false,
    remaining_points := PointVec.new location_count true }

/-- Model of `fn search`.  The `SolveStack` arena is modelled by the pair
`(stack_idx, stack_len)`: `alloc` is the bounds test `stack_idx < stack_len`
(the source asserts it and panics otherwise) followed by passing
`stack_idx + 1` to the child, and `dealloc` is returning to the parent
index.  Every live frame owns a distinct slot and each slot is fully
overwritten by `copy` right after `alloc` (both sides always hold
`sector_count` words), so the arena reuse is value-equivalent to the
functional state passing used here.  The fuel models the terminating Rust
recursion (the remaining set strictly shrinks); callers pass a fuel proven
sufficient below. -/
def search (solve_data : SolveData) (stack_idx stack_len : Nat)
    (adjacency_matrix : AdjacencyMatrix) (select_size : Nat) :
    Nat → Except String (Option SolveData)
  | 0 => Except.error "recursion fuel exhausted"
  | fuel + 1 =>
    if solve_data.selected_points.len ≥ select_size then Except.ok (some solve_data)
    else if solve_data.remaining_points.len < select_size - solve_data.selected_points.len then
      Except.ok none
    else
      match solve_data.remaining_points.next with
      | none => Except.error "At least one point remaining"
      | some point =>
        let solve_data2 : SolveData :=
          { solve_data with remaining_points := solve_data.remaining_points.remove point }
        if stack_idx < stack_len then
          let new_data : SolveData :=
            { selected_points := solve_data2.selected_points.insert point,
              remaining_points :=
                solve_data2.remaining_points.subtract
                  (adjacency_matrix.data.getD point emptyRow) }
          match search new_data (stack_idx + 1) stack_len adjacency_matrix select_size fuel with
          | Except.ok (some result) => Except.ok (some result)
          | Except.ok none =>
            search solve_data2 stack_idx stack_len adjacency_matrix select_size fuel
          | Except.error e => Except.error e
        else Except.error "assertion failed: idx < data.len"

/-- Total weight of the remaining-set words; the search recursion strictly
decreases it, so it bounds the recursion depth. -/
def sumData (v : PointVec) : Nat := v.data.sum

/-- Fuel passed to every `search` launched by `p_solver`: one more than the
weight of the full remaining set. -/
def solverFuel (location_count : Nat) : Nat :=
  sumData (PointVec.new location_count true) + 1

/-- One feasibility probe as launched by `p_solver`: after `stack.reset` and
the root `stack.alloc()`, the root state is `SolveData::new` and the next
free arena index is 1; the arena holds `input_size` slots. -/
def searchProbe {Q : Type} [LinearOrderedCommRing Q] (input_size : Nat)
    (dm : List (List Q)) (neighbour_distance : Q) (placements : Nat) :
    Except String (Option SolveData) :=
  search (SolveData.new input_size) 1 input_size
    (AdjacencyMatrix.new input_size dm neighbour_distance) placements
    (solverFuel input_size)

/-- One iteration of the binary-search loop body of `p_solver`
(`target = midpoint; match search ... { Some => left = target+1 and best
is overwritten by the witness, None => right = target }`). -/
def calibStep {Q : Type} [LinearOrderedCommRing Q] (input_size : Nat) (dm : List (List Q))
    (possible_point_distance : List Q) (placements : Nat)
    (left_index right_index : Nat) (best_result : PointVec) :
    Except String (Nat × Nat × PointVec) :=
  let target := (left_index + right_index) / 2
  match searchProbe input_size dm (possible_point_distance.getD target 0) placements with
  | Except.ok (some result) =>
    Except.ok (target + 1, right_index, best_result.copy result.selected_points)
  | Except.ok none => Except.ok (left_index, target, best_result)
  | Except.error e => Except.error e

/-- The `while left_index < right_index` loop of `p_solver`.  The interval
length strictly decreases each iteration, so the fuel `p_solver` passes
(list length + 1) can never run out. -/
def calibLoop {Q : Type} [LinearOrderedCommRing Q] (input_size : Nat) (dm : List (List Q))
    (possible_point_distance : List Q) (placements : Nat) :
    Nat → Nat → Nat → PointVec → Except String PointVec
  | 0, _, _, _ => Except.error "loop fuel exhausted"
  | fuel + 1, left_index, right_index, best_result =>
    if left_index < right_index then
      match calibStep input_size dm possible_point_distance placements
          left_index right_index best_result with
      | Except.ok (l2, r2, b2) =>
        calibLoop input_size dm possible_point_distance placements fuel l2 r2 b2
      | Except.error e => Except.error e
    else Except.ok best_result

/-- Model of `pub fn p_solver`.  The candidate thresholds are the sorted
first row of the distance matrix (`distance_matrix.first().expect(...)`,
a panic on empty input); `sort_by(f32::total_cmp)` on the order-embedded
values is the unique sorted rearrangement, modelled by `insertionSort`. -/
def p_solver {Q : Type} [LinearOrderedCommRing Q] (input_data : List (Point Q))
    (placements : Nat) : Except String (Option (List Nat)) :=
  let input_size := input_data.length
  let dm := distance_matrix input_data
  match dm with
  | [] => Except.error "Distance matrix must not be empty"
  | first_row :: _ =>
    let possible_point_distance := List.insertionSort (· ≤ ·) first_row
    let right_index := possible_point_distance.length - 1
    match calibLoop input_size dm possible_point_distance placements
        (possible_point_distance.length + 1) 0 right_index
        (PointVec.new input_size false) with
    | Except.error e => Except.error e
    | Except.ok best_result =>
      if best_result.true_count = 0 then Except.ok none
      else Except.ok (some (pointVecToList best_result))

end Core

deriving instance DecidableEq for Except

/-! ## Embedding of src/lib.rs (`solve_p_dispersion`)

The `HashSet<usize>` fields iterate in an unspecified order; the model uses
lists in insertion order (`remaining` starts as `0, 1, ..., n-1` and the
branching point is the first element).  Every fact proved below about this
variant either does not reach the order-dependent pick at all or concerns
outcomes (feasible / infeasible / panic) that do not depend on the pick
order.  `Result::Err(NoPossibleDispersion)` is the ordinary typed failure
of the source and is modelled as `Except.ok none`, while `Except.error`
models panics exactly as in the `Core` namespace. -/

namespace Lib

/-- Model of lib.rs `struct SolveData`. -/
structure SolveData (Q : Type) where
  select_size : Nat
  selected_points : List Nat
  remaining_points : List Nat
  adjacency_matrix : List (List Nat)
deriving DecidableEq

/-- Model of lib.rs `SolveData::new`: `remaining = {0..n}`, adjacency row
`index` lists (in index order) every `point` with
`distance[index][point] <= neighbour_distance`. -/
def SolveData.new {Q : Type} [LinearOrderedCommRing Q] (location_count : Nat)
    (dm : List (List Q)) (neighbour_distance : Q) (select_size : Nat) : SolveData Q :=
  { select_size := select_size,
    selected_points := [],
    remaining_points := List.range location_count,
    adjacency_matrix := (List.range location_count).map (fun index =>
      ((dm.getD index []).enum).filterMap (fun pd =>
        if pd.2 ≤ neighbour_distance then some pd.1 else none)) }

/-- Model of lib.rs `fn search` (clone-based, no arena).  The fuel models
the terminating recursion: both branches strictly shrink `remaining`. -/
def search {Q : Type} : Nat → SolveData Q → Except String (Option (SolveData Q))
  | 0, _ => Except.error "recursion fuel exhausted"
  | fuel + 1, solve_data =>
    if solve_data.selected_points.length ≥ solve_data.select_size then
      Except.ok (some solve_data)
    else if solve_data.remaining_points.length <
        solve_data.select_size - solve_data.selected_points.length then
      Except.ok none
    else
      match solve_data.remaining_points with
      | [] => Except.error "Must have at least 1 remaining"
      | point :: _ =>
        let new_data : SolveData Q :=
          { solve_data with
            selected_points := point :: solve_data.selected_points,
            remaining_points :=
              (solve_data.adjacency_matrix.getD point []).foldl
                (fun rem p => rem.erase p)
                (solve_data.remaining_points.erase point) }
        match search fuel new_data with
        | Except.ok (some result) => Except.ok (some result)
        | Except.ok none =>
          search fuel
            { solve_data with remaining_points := solve_data.remaining_points.erase point }
        | Except.error e => Except.error e

/-- Fuel passed to every lib.rs search probe: `remaining` shrinks each
level, so one more than its initial length suffices. -/
def searchFuel (location_count : Nat) : Nat := location_count + 1

/-- One iteration of the `while left_index < right_index` loop body of
`solve_p_dispersion`.  On a feasible probe the source sets
`right_index = target - 1` (keeping the witness only when its threshold
beats the best so far); on an infeasible probe it sets
`left_index = target + 1`.  `target - 1` underflows when `target = 0`: a
debug build panics there, and a release build wraps to `usize::MAX` which
makes the following iteration index `possible_point_distance` out of
bounds, another panic — either way modelled as an error. -/
def libStep {Q : Type} [LinearOrderedCommRing Q] (input_size : Nat) (dm : List (List Q))
    (possible_point_distance : List Q) (placements : Nat)
    (left_index right_index : Nat) (largest_distance : Q)
    (best_result : Option (SolveData Q)) :
    Except String (Nat × Nat × Q × Option (SolveData Q)) :=
  let target := (left_index + right_index) / 2
  if target < possible_point_distance.length then
    match search (searchFuel input_size)
        (SolveData.new input_size dm (possible_point_distance.getD target 0) placements) with
    | Except.ok (some result) =>
      if target = 0 then Except.error "attempt to subtract with overflow"
      else if largest_distance < possible_point_distance.getD target 0 then
        Except.ok (left_index, target - 1, possible_point_distance.getD target 0, some result)
      else Except.ok (left_index, target - 1, largest_distance, best_result)
    | Except.ok none =>
      Except.ok (target + 1, right_index, largest_distance, best_result)
    | Except.error e => Except.error e
  else Except.error "index out of bounds"

/-- The binary-search loop of `solve_p_dispersion`; returns the final
`(left_index, right_index, largest_distance, best_result)`. -/
def libLoop {Q : Type} [LinearOrderedCommRing Q] (input_size : Nat) (dm : List (List Q))
    (possible_point_distance : List Q) (placements : Nat) :
    Nat → Nat → Nat → Q → Option (SolveData Q) →
      Except String (Nat × Nat × Q × Option (SolveData Q))
  | 0, _, _, _, _ => Except.error "loop fuel exhausted"
  | fuel + 1, left_index, right_index, largest_distance, best_result =>
    if left_index < right_index then
      match libStep input_size dm possible_point_distance placements
          left_index right_index largest_distance best_result with
      | Except.ok (l2, r2, lg2, b2) =>
        libLoop input_size dm possible_point_distance placements fuel l2 r2 lg2 b2
      | Except.error e => Except.error e
    else Except.ok (left_index, right_index, largest_distance, best_result)

/-- Model of `pub fn solve_p_dispersion`.  Candidates are all `n^2` matrix
entries in row-major order, sorted; the loop starts with
`right_index = possible_point_distance.len()` and is followed by the two
boundary probes marked `[FIXME] Bandaid` in the source, both of which
index `possible_point_distance` unconditionally.  `Ok(indices)` maps to
`Except.ok (some _)` and `Err(NoPossibleDispersion)` to `Except.ok none`. -/
def solve_p_dispersion {Q : Type} [LinearOrderedCommRing Q] (input_array : List (Point Q))
    (placements : Nat) : Except String (Option (List Nat)) :=
  let input_size := input_array.length
  let dm := distance_matrix input_array
  let possible_point_distance := List.insertionSort (· ≤ ·) dm.flatten
  match libLoop input_size dm possible_point_distance placements
      (possible_point_distance.length + 2) 0 possible_point_distance.length 0 none with
  | Except.error e => Except.error e
  | Except.ok (left_index, right_index, largest_distance, best_result) =>
    if left_index < possible_point_distance.length then
      match search (searchFuel input_size)
          (SolveData.new input_size dm (possible_point_distance.getD left_index 0)
            placements) with
      | Except.error e => Except.error e
      | Except.ok r1 =>
        let step1 : Q × Option (SolveData Q) :=
          match r1 with
          | some result =>
            if largest_distance < possible_point_distance.getD left_index 0 then
              (possible_point_distance.getD left_index 0, some result)
            else (largest_distance, best_result)
          | none => (largest_distance, best_result)
        if right_index < possible_point_distance.length then
          match search (searchFuel input_size)
              (SolveData.new input_size dm (possible_point_distance.getD right_index 0)
                placements) with
          | Except.error e => Except.error e
          | Except.ok r2 =>
            let best3 : Option (SolveData Q) :=
              match r2 with
              | some result =>
                if step1.1 < possible_point_distance.getD right_index 0 then some result
                else step1.2
              | none => step1.2
            match best3 with
            | some data => Except.ok (some data.selected_points)
            | none => Except.ok none
        else Except.error "index out of bounds"
    else Except.error "index out of bounds"

end Lib

/-! ## Embedding of the src/naive.rs bitset (`PointVec` over `[u64; 3]`)

Only the two operations absent from the core variant are needed by the
claims (`insert_and_copy`, `subtract_and_copy`); the `u8` cardinality
counter is modelled as `Nat` (the asserted capacity bound `n < 192` keeps
it below 256 wherever the source runs). -/

namespace Naive

/-- All-ones mask of a `u64`. -/
def u64max : Nat := 2 ^ 64 - 1

/-- Model of `u64::count_ones`. -/
def countOnes64 (x : Nat) : Nat := goCount 64 x

/-- Model of naive.rs `struct PointVec { data: [u64; 3], true_count: u8 }`;
the invariant `data.length = 3` replaces the fixed array type. -/
structure PointVec where
  data : List Nat
  true_count : Nat
deriving DecidableEq

/-- Model of naive.rs `PointVec::subtract_and_copy`:
`self.data[i] = lhs.data[i] & !rhs.data[i]` for `i` in `0..self.data.len()`,
recomputing `true_count` in the same pass. -/
def PointVec.subtract_and_copy (v lhs rhs : PointVec) : PointVec :=
  let pairs := (List.range v.data.length).map (fun index =>
    lhs.data.getD index 0 &&& (rhs.data.getD index 0 ^^^ u64max))
  { data := pairs, true_count := (pairs.map countOnes64).sum }

/-- Model of naive.rs `PointVec::insert_and_copy`: copy `lhs` into `self`
with the bit of `index` set in the target sector; `true_count` is written
inside the loop iteration that visits the target sector. -/
def PointVec.insert_and_copy (v lhs : PointVec) (index : Nat) : PointVec :=
  let target_sector := index / 64
  let bitmask := 2 ^ (index % 64)
  { data := (List.range v.data.length).map (fun sector =>
      if sector = target_sector then lhs.data.getD sector 0 ||| bitmask
      else lhs.data.getD sector 0),
    true_count :=
      if target_sector < v.data.length then
        lhs.true_count +
          (if lhs.data.getD target_sector 0 &&& bitmask = bitmask then 0 else 1)
      else v.true_count }

end Naive

/-! ## Specification-side reference definitions

These two definitions are written from the words of the specification (not
from the source) and exist only to be compared against the embedded
program: the spec feasibility contract in section 4.4 and the brute-force
enumeration of section 8. -/

/-- Spec feasibility at threshold `t` (squared scale): `p` distinct input
indices whose pairwise distances all exceed `t`. -/
def specFeasible {Q : Type} [LinearOrderedCommRing Q] (pts : List (Point Q)) (p : Nat)
    (t : Q) : Prop :=
  ∃ S : Finset Nat, S ⊆ Finset.range pts.length ∧ S.card = p ∧
    ∀ i ∈ S, ∀ j ∈ S, i ≠ j →
      t < (pts.getD i ⟨0, 0⟩).get_distance_sq (pts.getD j ⟨0, 0⟩)

/-- Minimum pairwise (squared) distance over a selection of indices, `none`
when the selection has fewer than two distinct indices. -/
def selMinPairDist {Q : Type} [LinearOrderedCommRing Q] (pts : List (Point Q))
    (sel : List Nat) : Option Q :=
  (((sel.flatMap (fun i => sel.map (fun j => (i, j)))).filter
      (fun ij => ij.1 != ij.2)).map
    (fun ij => (pts.getD ij.1 ⟨0, 0⟩).get_distance_sq (pts.getD ij.2 ⟨0, 0⟩))).min?

/-- Brute-force enumeration of all size-`p` subsets of the input indices,
returning the best achievable minimum pairwise (squared) distance. -/
def bruteForceOpt {Q : Type} [LinearOrderedCommRing Q] (pts : List (Point Q)) (p : Nat) :
    Option Q :=
  ((((List.range pts.length).sublists.filter (fun l => l.length == p)).filterMap
    (fun sel => selMinPairDist pts sel))).max?

/-! ## Semantic definitions used by the statements and proofs -/

/-- The set of positions of set bits of a word list of width `w`. -/
def bitsFinset (w : Nat) (data : List Nat) : Finset Nat :=
  (Finset.range (w * data.length)).filter (fun j => bitAt w data j = true)

/-- Squared distance between input points `i` and `j` of a point list. -/
def pdist {Q : Type} [LinearOrderedCommRing Q] (pts : List (Point Q)) (i j : Nat) : Q :=
  (pts.getD i ⟨0, 0⟩).get_distance_sq (pts.getD j ⟨0, 0⟩)

namespace Core

/-- Number of `u32` words backing a capacity-`n` `PointVec`. -/
def sectors (n : Nat) : Nat := n / 32 + (if n % 32 = 0 then 0 else 1)

/-- Membership of index `j` in the bitset. -/
def mem (v : PointVec) (j : Nat) : Prop := bitAt 32 v.data j = true

/-- The `PointVec` data invariant of the specification: word count matches
the capacity, words fit in 32 bits, the cardinality counter equals the
number of set bits, and every bit at a position at or beyond the capacity
is zero. -/
def Inv (n : Nat) (v : PointVec) : Prop :=
  v.data.length = sectors n ∧ (∀ x ∈ v.data, x < 2 ^ 32) ∧
    v.true_count = (v.data.map countOnes32).sum ∧
    ∀ j, j < 32 * v.data.length → n ≤ j → bitAt 32 v.data j = false

instance (n : Nat) (v : PointVec) : Decidable (Inv n v) := by
  unfold Inv; exact inferInstance

/-- Row of the adjacency matrix (the source indexes with a always-in-bounds
`point`, proved below at every use). -/
def rowOf (adj : AdjacencyMatrix) (i : Nat) : PointVec := adj.data.getD i emptyRow

/-- Adjacency relation encoded by the matrix: `j` is within threshold of `i`. -/
def adjMem (adj : AdjacencyMatrix) (i j : Nat) : Prop := mem (rowOf adj i) j

/-- Well-formedness of an adjacency matrix for `n` points. -/
def AdjOK (n : Nat) (adj : AdjacencyMatrix) : Prop :=
  adj.data.length = n ∧ ∀ row ∈ adj.data, Inv n row

/-- Symmetry of the adjacency relation on valid indices. -/
def SymmAdj (n : Nat) (adj : AdjacencyMatrix) : Prop :=
  ∀ i j, i < n → j < n → (adjMem adj i j ↔ adjMem adj j i)

/-- Invariant of a live `SolveData` search state: both bitsets are well
formed, selected and remaining are disjoint, no remaining point is adjacent
to a selected one, and the selected points are pairwise non-adjacent. -/
def sdInv (n : Nat) (adj : AdjacencyMatrix) (sd : SolveData) : Prop :=
  Inv n sd.selected_points ∧ Inv n sd.remaining_points ∧
    (∀ j, ¬(mem sd.selected_points j ∧ mem sd.remaining_points j)) ∧
    (∀ i j, mem sd.selected_points i → mem sd.remaining_points j → ¬adjMem adj i j) ∧
    ∀ i j, mem sd.selected_points i → mem sd.selected_points j → i ≠ j → ¬adjMem adj i j

/-- Discriminator for a feasibility-search success. -/
def isOkSome {α : Type} : Except String (Option α) → Bool
  | Except.ok (some _) => true
  | _ => false

end Core

namespace Naive

/-- The naive-variant `PointVec` invariant: three `u64` sectors, in-range
words, exact cardinality counter, zero bits at or beyond the capacity. -/
def Inv (n : Nat) (v : PointVec) : Prop :=
  v.data.length = 3 ∧ (∀ x ∈ v.data, x < 2 ^ 64) ∧
    v.true_count = (v.data.map countOnes64).sum ∧
    ∀ j, j < 64 * v.data.length → n ≤ j → bitAt 64 v.data j = false

instance (n : Nat) (v : PointVec) : Decidable (Inv n v) := by
  unfold Inv; exact inferInstance

end Naive

/-- Concrete input for the optimality counterexample: four collinear points
whose `f32` distances are the exact integers `0,1,10,11,20,21`; the squared
embedding keeps exactly the comparisons the source performs. -/
def cexPoints : List (Point Int) := [⟨0, 0⟩, ⟨-10, 0⟩, ⟨10, 0⟩, ⟨11, 0⟩]

/-- Two distinct points, used by several witnesses and by the arena
assertion-failure input. -/
def twoPoints : List (Point Int) := [⟨0, 0⟩, ⟨1, 0⟩]

/-- A single point. -/
def onePoint : List (Point Int) := [⟨0, 0⟩]

/-! # Theorems -/

/-! ## Machine-word groundwork -/

theorem testBit_false_of_ge {x f i : Nat} (hx : x < 2 ^ f) (hi : f ≤ i) :
    x.testBit i = false := by
  by_contra h
  have hb : x.testBit i = true := by
    cases hxi : x.testBit i with
    | false => exact absurd hxi h
    | true => rfl
  have h1 := Nat.testBit_implies_ge hb
  have h2 : (2 : Nat) ^ f ≤ 2 ^ i := Nat.pow_le_pow_right (by norm_num) hi
  omega

theorem lt_two_pow_of_high_false : ∀ f x : Nat, (∀ i, f ≤ i → x.testBit i = false) →
    x < 2 ^ f := by
  intro f
  induction f with
  | zero =>
    intro x h
    have hx : x = 0 := by
      apply Nat.eq_of_testBit_eq
      intro i
      rw [h i (Nat.zero_le i), Nat.zero_testBit]
    simp [hx]
  | succ f ih =>
    intro x h
    have h2 : ∀ i, f ≤ i → (x / 2).testBit i = false := by
      intro i hi
      rw [← Nat.testBit_succ]
      exact h (i + 1) (by omega)
    have hdiv := ih (x / 2) h2
    have hmod := Nat.div_add_mod x 2
    have hm : x % 2 < 2 := Nat.mod_lt _ (by norm_num)
    have hp : (2 : Nat) ^ (f + 1) = 2 * 2 ^ f := by ring
    omega

theorem lor_lt_two_pow {x y f : Nat} (hx : x < 2 ^ f) (hy : y < 2 ^ f) :
    x ||| y < 2 ^ f := by
  apply lt_two_pow_of_high_false
  intro i hi
  rw [Nat.testBit_lor, testBit_false_of_ge hx hi, testBit_false_of_ge hy hi]
  rfl

theorem land_lt_two_pow {x f : Nat} (y : Nat) (hx : x < 2 ^ f) : x &&& y < 2 ^ f := by
  apply lt_two_pow_of_high_false
  intro i hi
  rw [Nat.testBit_land, testBit_false_of_ge hx hi]
  rfl

theorem le_of_testBit_subset : ∀ f x y : Nat, x < 2 ^ f →
    (∀ i, x.testBit i = true → y.testBit i = true) → x ≤ y := by
  intro f
  induction f with
  | zero => intro x y hx _; omega
  | succ f ih =>
    intro x y hx h
    have hxd : x / 2 < 2 ^ f := by
      have hp : (2 : Nat) ^ (f + 1) = 2 * 2 ^ f := by ring
      omega
    have hdiv : x / 2 ≤ y / 2 := by
      apply ih _ _ hxd
      intro i hi
      have hx2 : x.testBit (i + 1) = true := by rw [Nat.testBit_succ]; exact hi
      have := h (i + 1) hx2
      rw [Nat.testBit_succ] at this
      exact this
    have hmx := Nat.div_add_mod x 2
    have hmy := Nat.div_add_mod y 2
    have hmx2 : x % 2 < 2 := Nat.mod_lt _ (by norm_num)
    have hmy2 : y % 2 < 2 := Nat.mod_lt _ (by norm_num)
    rcases Nat.mod_two_eq_zero_or_one x with hx0 | hx1
    · omega
    · have hb : x.testBit 0 = true := by rw [Nat.testBit_zero]; simp [hx1]
      have hyb := h 0 hb
      rw [Nat.testBit_zero] at hyb
      have : y % 2 = 1 := by simpa using hyb
      omega

theorem goCount_eq_sum : ∀ f x : Nat, x < 2 ^ f →
    goCount f x = ∑ i ∈ Finset.range f, if x.testBit i then 1 else 0 := by
  intro f
  induction f with
  | zero =>
    intro x hx
    have : x = 0 := by omega
    simp [this, goCount]
  | succ f ih =>
    intro x hx
    by_cases h0 : x = 0
    · subst h0
      simp [goCount, Nat.zero_testBit]
    · have hxd : x / 2 < 2 ^ f := by
        have hp : (2 : Nat) ^ (f + 1) = 2 * 2 ^ f := by ring
        omega
      rw [Finset.sum_range_succ']
      have hrec : goCount (f + 1) x = x % 2 + goCount f (x / 2) := by
        simp [goCount, h0]
      rw [hrec, ih _ hxd]
      have hbit : ∀ i, (x / 2).testBit i = x.testBit (i + 1) := by
        intro i; rw [Nat.testBit_succ]
      have hzero : (if x.testBit 0 then 1 else 0) = x % 2 := by
        rw [Nat.testBit_zero]
        rcases Nat.mod_two_eq_zero_or_one x with h | h <;> simp [h]
      simp only [hbit, hzero]
      omega

theorem goCtz_testBit : ∀ f x : Nat, 0 < x → x < 2 ^ f → x.testBit (goCtz f x) = true := by
  intro f
  induction f with
  | zero => intro x hx hx2; omega
  | succ f ih =>
    intro x hx hx2
    by_cases hodd : x % 2 = 1
    · simp [goCtz, hodd, Nat.testBit_zero]
    · have hrec : goCtz (f + 1) x = 1 + goCtz f (x / 2) := by simp [goCtz, hodd]
      have hxd : 0 < x / 2 := by omega
      have hxd2 : x / 2 < 2 ^ f := by
        have hp : (2 : Nat) ^ (f + 1) = 2 * 2 ^ f := by ring
        omega
      rw [hrec, Nat.add_comm 1 (goCtz f (x / 2)), Nat.testBit_succ]
      exact ih _ hxd hxd2

theorem goCtz_lt {f x : Nat} (hx : 0 < x) (hx2 : x < 2 ^ f) : goCtz f x < f := by
  have hb := goCtz_testBit f x hx hx2
  have h1 := Nat.testBit_implies_ge hb
  by_contra h
  have : (2 : Nat) ^ f ≤ 2 ^ goCtz f x := Nat.pow_le_pow_right (by norm_num) (by omega)
  omega

theorem testBit_clear {f b x : Nat} (hx : x < 2 ^ f) (i : Nat) :
    (x &&& (2 ^ b ^^^ (2 ^ f - 1))).testBit i = (x.testBit i && !(decide (b = i))) := by
  rw [Nat.testBit_land, Nat.testBit_xor, Nat.testBit_two_pow, Nat.testBit_two_pow_sub_one]
  by_cases hif : i < f
  · by_cases hbi : b = i <;> simp [hbi, hif]
  · have hfalse : x.testBit i = false := testBit_false_of_ge hx (by omega)
    simp [hfalse]

theorem testBit_subword {f x r : Nat} (hx : x < 2 ^ f) (i : Nat) :
    (x &&& (r ^^^ (2 ^ f - 1))).testBit i = (x.testBit i && !r.testBit i) := by
  rw [Nat.testBit_land, Nat.testBit_xor, Nat.testBit_two_pow_sub_one]
  by_cases hif : i < f
  · simp [hif]
  · have hfalse : x.testBit i = false := testBit_false_of_ge hx (by omega)
    simp [hfalse]

theorem land_pow_eq_iff {x b : Nat} : x &&& 2 ^ b = 2 ^ b ↔ x.testBit b = true := by
  constructor
  · intro h
    have h2 := congrArg (fun z => Nat.testBit z b) h
    simp only [Nat.testBit_land, Nat.testBit_two_pow] at h2
    simpa using h2
  · intro h
    apply Nat.eq_of_testBit_eq
    intro i
    rw [Nat.testBit_land, Nat.testBit_two_pow]
    by_cases hbi : b = i
    · subst hbi; simp [h]
    · simp [hbi]

theorem goCount_lor_pow {f b x : Nat} (hx : x < 2 ^ f) (hb : b < f) :
    goCount f (x ||| 2 ^ b) = goCount f x + (if x.testBit b then 0 else 1) := by
  have hpow : (2 : Nat) ^ b < 2 ^ f := Nat.pow_lt_pow_right (by norm_num) hb
  have h1 : x ||| 2 ^ b < 2 ^ f := lor_lt_two_pow hx hpow
  rw [goCount_eq_sum _ _ h1, goCount_eq_sum _ _ hx]
  have hmem : b ∈ Finset.range f := Finset.mem_range.mpr hb
  rw [← Finset.add_sum_erase _ _ hmem, ← Finset.add_sum_erase _ _ hmem]
  have herase : ∑ i ∈ (Finset.range f).erase b, (if (x ||| 2 ^ b).testBit i then 1 else 0) =
      ∑ i ∈ (Finset.range f).erase b, (if x.testBit i then 1 else 0) := by
    apply Finset.sum_congr rfl
    intro i hi
    have hne : b ≠ i := fun h => (Finset.mem_erase.mp hi).1 h.symm
    rw [Nat.testBit_lor, Nat.testBit_two_pow]
    simp [hne]
  rw [herase]
  have hbself : (x ||| 2 ^ b).testBit b = true := by
    rw [Nat.testBit_lor, Nat.testBit_two_pow]
    simp
  rw [hbself]
  cases hxb : x.testBit b <;> simp <;> omega

theorem goCount_clear {f b x : Nat} (hx : x < 2 ^ f) (hb : b < f) :
    goCount f (x &&& (2 ^ b ^^^ (2 ^ f - 1))) + (if x.testBit b then 1 else 0) =
      goCount f x := by
  have h1 : x &&& (2 ^ b ^^^ (2 ^ f - 1)) < 2 ^ f := land_lt_two_pow _ hx
  rw [goCount_eq_sum _ _ h1, goCount_eq_sum _ _ hx]
  have hmem : b ∈ Finset.range f := Finset.mem_range.mpr hb
  rw [← Finset.add_sum_erase _ _ hmem, ← Finset.add_sum_erase _ _ hmem]
  have herase : ∑ i ∈ (Finset.range f).erase b,
      (if (x &&& (2 ^ b ^^^ (2 ^ f - 1))).testBit i then 1 else 0) =
      ∑ i ∈ (Finset.range f).erase b, (if x.testBit i then 1 else 0) := by
    apply Finset.sum_congr rfl
    intro i hi
    have hne : b ≠ i := fun h => (Finset.mem_erase.mp hi).1 h.symm
    rw [testBit_clear hx]
    simp [hne]
  rw [herase]
  have hbself : (x &&& (2 ^ b ^^^ (2 ^ f - 1))).testBit b = false := by
    rw [testBit_clear hx]
    simp
  rw [hbself]
  cases hxb : x.testBit b <;> simp [Nat.add_assoc, Nat.add_comm]

theorem clear_lt_of_testBit {f b x : Nat} (hx : x < 2 ^ f) (hb : x.testBit b = true) :
    x &&& (2 ^ b ^^^ (2 ^ f - 1)) < x := by
  apply Nat.lt_of_testBit b
  · rw [testBit_clear hx]; simp
  · exact hb
  · intro j hj
    rw [testBit_clear hx]
    have : b ≠ j := by omega
    simp [this]

theorem subword_le {f x r : Nat} (hx : x < 2 ^ f) : x &&& (r ^^^ (2 ^ f - 1)) ≤ x := by
  apply le_of_testBit_subset f _ _ (land_lt_two_pow _ hx)
  intro i hi
  rw [testBit_subword hx] at hi
  exact (Bool.and_eq_true_iff.mp hi).1

/-! ## Word-list groundwork -/

theorem getD_zipWith {α β γ : Type} [Inhabited γ] (g : α → β → γ) (da : α) (db : β)
    (dc : γ) (as2 : List α) (bs : List β) (i : Nat) (ha : i < as2.length)
    (hb : i < bs.length) (hg : g da db = dc) :
    (List.zipWith g as2 bs).getD i dc = g (as2.getD i da) (bs.getD i db) := by
  rw [List.getD_eq_getElem?_getD, List.getElem?_zipWith,
    List.getElem?_eq_getElem ha, List.getElem?_eq_getElem hb,
    List.getD_eq_getElem?_getD, List.getD_eq_getElem?_getD,
    List.getElem?_eq_getElem ha, List.getElem?_eq_getElem hb]
  rfl

theorem getD_set_lemma {l : List Nat} {s : Nat} (y : Nat) (i : Nat) (hs : s < l.length) :
    (l.set s y).getD i 0 = if s = i then y else l.getD i 0 := by
  rw [List.getD_eq_getElem?_getD, List.getElem?_set, List.getD_eq_getElem?_getD]
  by_cases h : s = i
  · subst h; simp [hs]
  · simp [h]

theorem getD_map_range {α : Type} (f : Nat → α) (d : α) (k i : Nat) (hi : i < k) :
    ((List.range k).map f).getD i d = f i := by
  rw [List.getD_eq_getElem?_getD, List.getElem?_map, List.getElem?_range hi]
  rfl

theorem sum_map_set : ∀ (l : List Nat) (s : Nat) (y : Nat) (f : Nat → Nat),
    s < l.length →
    ((l.set s y).map f).sum + f (l.getD s 0) = (l.map f).sum + f y := by
  intro l
  induction l with
  | nil => intro s y f h; simp at h
  | cons a rest ih =>
    intro s y f h
    cases s with
    | zero => simp [List.set, Nat.add_comm, Nat.add_assoc, Nat.add_left_comm]
    | succ s =>
      have hs : s < rest.length := by simpa using h
      have := ih s y f hs
      simp only [List.set, List.map_cons, List.sum_cons, List.getD_cons_succ]
      omega

theorem bitAt_out {w : Nat} (data : List Nat) (j : Nat) (hw : 0 < w)
    (hj : w * data.length ≤ j) : bitAt w data j = false := by
  unfold bitAt
  have hdiv : data.length ≤ j / w := by
    rw [Nat.le_div_iff_mul_le hw, Nat.mul_comm]
    exact hj
  rw [List.getD_eq_default _ _ hdiv]
  exact Nat.zero_testBit _

theorem mem_bitsFinset {w : Nat} {data : List Nat} {j : Nat} :
    j ∈ bitsFinset w data ↔ j < w * data.length ∧ bitAt w data j = true := by
  unfold bitsFinset
  rw [Finset.mem_filter, Finset.mem_range]

theorem bitAt_lt_of_true {w : Nat} {data : List Nat} {j : Nat} (hw : 0 < w)
    (h : bitAt w data j = true) : j < w * data.length := by
  by_contra hj
  rw [bitAt_out data j hw (by omega)] at h
  exact Bool.false_ne_true h

theorem bitAt_cons_lt {w : Nat} (x : Nat) (rest : List Nat) {j : Nat} (hj : j < w) :
    bitAt w (x :: rest) j = x.testBit j := by
  unfold bitAt
  rw [Nat.div_eq_of_lt hj, Nat.mod_eq_of_lt hj]
  rfl

theorem bitAt_cons_shift {w : Nat} (x : Nat) (rest : List Nat) (j : Nat) (hw : 0 < w) :
    bitAt w (x :: rest) (w + j) = bitAt w rest j := by
  unfold bitAt
  have h1 : (w + j) / w = j / w + 1 := by
    rw [Nat.add_comm w j, Nat.add_div_right _ hw]
  have h2 : (w + j) % w = j % w := Nat.add_mod_left w j
  rw [h1, h2, List.getD_cons_succ]

theorem sum_map_goCount_eq_card {w : Nat} (hw : 0 < w) :
    ∀ data : List Nat, (∀ x ∈ data, x < 2 ^ w) →
    (data.map (goCount w)).sum = (bitsFinset w data).card := by
  intro data
  induction data with
  | nil => intro _; simp [bitsFinset]
  | cons x rest ih =>
    intro hword
    have hx : x < 2 ^ w := hword x (List.mem_cons_self _ _)
    have hrest : ∀ y ∈ rest, y < 2 ^ w := fun y hy => hword y (List.mem_cons_of_mem _ hy)
    unfold bitsFinset
    rw [Finset.card_filter]
    have hlen : w * (x :: rest).length = w + w * rest.length := by
      simp [List.length_cons]; ring
    rw [hlen, Finset.range_eq_Ico,
      ← Finset.sum_Ico_consecutive _ (Nat.zero_le w) (Nat.le_add_right w _)]
    have hlow : ∑ j ∈ Finset.Ico 0 w, (if bitAt w (x :: rest) j = true then 1 else 0) =
        goCount w x := by
      rw [← Finset.range_eq_Ico, goCount_eq_sum w x hx]
      apply Finset.sum_congr rfl
      intro j hj
      rw [bitAt_cons_lt x rest (Finset.mem_range.mp hj)]
    have hhigh : ∑ j ∈ Finset.Ico w (w + w * rest.length),
        (if bitAt w (x :: rest) j = true then 1 else 0) =
        (rest.map (goCount w)).sum := by
      rw [Finset.sum_Ico_eq_sum_range]
      have hsub : w + w * rest.length - w = w * rest.length := by omega
      rw [hsub, ih hrest]
      unfold bitsFinset
      rw [Finset.card_filter]
      apply Finset.sum_congr rfl
      intro j _
      rw [bitAt_cons_shift x rest j hw]
    rw [hlow, hhigh]
    simp

/-! ## Core bitset lemmas -/

namespace Core

theorem u32max_lt : u32max < 2 ^ 32 := by unfold u32max; omega

theorem countOnes32_zero : countOnes32 0 = 0 := rfl

theorem le_32_sectors (n : Nat) : n ≤ 32 * sectors n := by
  unfold sectors
  have h := Nat.div_add_mod n 32
  have h2 : n % 32 < 32 := Nat.mod_lt _ (by norm_num)
  by_cases hm : n % 32 = 0 <;> simp [hm] <;> omega

theorem div32_lt_sectors {n k : Nat} (hk : k < n) : k / 32 < sectors n := by
  have h1 : k < 32 * sectors n := Nat.lt_of_lt_of_le hk (le_32_sectors n)
  rw [Nat.div_lt_iff_lt_mul (by norm_num : (0:Nat) < 32), Nat.mul_comm]
  exact h1

theorem getD_replicate (a : Nat) : ∀ s i : Nat, i < s → (List.replicate s a).getD i 0 = a := by
  intro s
  induction s with
  | zero => intro i hi; omega
  | succ s ih =>
    intro i hi
    cases i with
    | zero => simp [List.replicate]
    | succ i => simpa [List.replicate] using ih i (by omega)

theorem modifyLast_length (f : Nat → Nat) : ∀ l : List Nat, (modifyLast f l).length = l.length := by
  intro l
  induction l with
  | nil => rfl
  | cons a rest ih =>
    cases rest with
    | nil => rfl
    | cons b rest2 => simpa [modifyLast] using ih

theorem mem_modifyLast (f : Nat → Nat) : ∀ (l : List Nat) (x : Nat), x ∈ modifyLast f l →
    x ∈ l ∨ ∃ y ∈ l, x = f y := by
  intro l
  induction l with
  | nil => intro x hx; simp [modifyLast] at hx
  | cons a rest ih =>
    cases rest with
    | nil =>
      intro x hx
      simp [modifyLast] at hx
      exact Or.inr ⟨a, by simp, hx⟩
    | cons b rest2 =>
      intro x hx
      simp only [modifyLast, List.mem_cons] at hx
      rcases hx with h | h
      · exact Or.inl (by simp [h])
      · rcases ih x h with h2 | ⟨y, hy, hxy⟩
        · exact Or.inl (List.mem_cons_of_mem _ h2)
        · exact Or.inr ⟨y, List.mem_cons_of_mem _ hy, hxy⟩

theorem getD_modifyLast (f : Nat → Nat) : ∀ l : List Nat, l ≠ [] → ∀ i : Nat,
    (modifyLast f l).getD i 0 = if i = l.length - 1 then f (l.getD i 0) else l.getD i 0 := by
  intro l
  induction l with
  | nil => intro h; exact absurd rfl h
  | cons a rest ih =>
    cases rest with
    | nil =>
      intro _ i
      cases i with
      | zero => simp [modifyLast]
      | succ i => simp [modifyLast]
    | cons b rest2 =>
      intro _ i
      cases i with
      | zero => simp [modifyLast]
      | succ i =>
        have := ih (by simp) i
        simp only [modifyLast, List.getD_cons_succ, List.length_cons] at this ⊢
        simpa using this

theorem new_data_length (n : Nat) (fill : Bool) :
    (PointVec.new n fill).data.length = sectors n := by
  unfold PointVec.new sectors
  cases fill <;> by_cases hm : n % 32 = 0 <;>
    simp [hm, modifyLast_length, List.length_replicate]

theorem bitAt_new_false (n j : Nat) : bitAt 32 (PointVec.new n false).data j = false := by
  unfold PointVec.new bitAt
  by_cases h : j / 32 < n / 32 + (if n % 32 = 0 then 0 else 1)
  · simp only [if_neg (Bool.false_ne_true)]
    rw [getD_replicate _ _ _ h]
    exact Nat.zero_testBit _
  · simp only [if_neg (Bool.false_ne_true)]
    rw [List.getD_eq_default _ _ (by simp [List.length_replicate]; omega)]
    exact Nat.zero_testBit _

theorem Inv_new_false (n : Nat) : Inv n (PointVec.new n false) := by
  refine ⟨new_data_length n false, ?_, ?_, ?_⟩
  · intro x hx
    unfold PointVec.new at hx
    simp only [if_neg (Bool.false_ne_true)] at hx
    rw [List.eq_of_mem_replicate hx]
    positivity
  · unfold PointVec.new
    simp only [if_neg (Bool.false_ne_true)]
    induction (n / 32 + if n % 32 = 0 then 0 else 1) with
    | zero => simp
    | succ s ih => simpa [List.replicate, countOnes32_zero] using ih
  · intro j _ _
    exact bitAt_new_false n j

theorem new_true_data_mod (n : Nat) (hm : n % 32 = 0) :
    (PointVec.new n true).data = List.replicate (sectors n) u32max := by
  unfold PointVec.new sectors
  simp [hm]

theorem new_true_data_nmod (n : Nat) (hm : ¬ n % 32 = 0) :
    (PointVec.new n true).data =
      modifyLast (fun last => last &&& (2 ^ (n % 32) - 1))
        (List.replicate (sectors n) u32max) := by
  unfold PointVec.new sectors
  simp [hm]

theorem new_true_getD (n : Nat) {i : Nat} (hi : i < sectors n) :
    (PointVec.new n true).data.getD i 0 =
      if 32 * (i + 1) ≤ n then u32max else u32max &&& (2 ^ (n % 32) - 1) := by
  have hmod32 : n % 32 < 32 := Nat.mod_lt _ (by norm_num)
  have hdm := Nat.div_add_mod n 32
  by_cases hm : n % 32 = 0
  · rw [new_true_data_mod n hm, getD_replicate _ _ _ hi]
    have hsec : sectors n = n / 32 := by unfold sectors; simp [hm]
    have hle : 32 * (i + 1) ≤ n := by
      rw [hsec] at hi
      omega
    simp [hle]
  · have hsec : sectors n = n / 32 + 1 := by unfold sectors; simp [hm]
    have hne : List.replicate (sectors n) u32max ≠ [] := by
      rw [hsec]
      simp
    rw [new_true_data_nmod n hm, getD_modifyLast _ _ hne i, List.length_replicate]
    rw [hsec] at hi ⊢
    by_cases hlast : i = n / 32
    · have hcond : i = n / 32 + 1 - 1 := by omega
      have hgt : ¬ 32 * (i + 1) ≤ n := by omega
      rw [if_pos hcond, getD_replicate _ _ _ (by omega), if_neg hgt]
    · have hcond : ¬ i = n / 32 + 1 - 1 := by omega
      have hle : 32 * (i + 1) ≤ n := by omega
      rw [if_neg hcond, getD_replicate _ _ _ (by omega), if_pos hle]

theorem bitAt_new_true (n j : Nat) :
    bitAt 32 (PointVec.new n true).data j = decide (j < n) := by
  have hmod32 : n % 32 < 32 := Nat.mod_lt _ (by norm_num)
  have hdm := Nat.div_add_mod n 32
  have hjd := Nat.div_add_mod j 32
  have hjm : j % 32 < 32 := Nat.mod_lt _ (by norm_num)
  by_cases hj : j < 32 * sectors n
  · have hidx : j / 32 < sectors n := by
      rw [Nat.div_lt_iff_lt_mul (by norm_num : (0:Nat) < 32), Nat.mul_comm]
      exact hj
    unfold bitAt
    rw [new_true_getD n hidx]
    by_cases hle : 32 * (j / 32 + 1) ≤ n
    · have hjn : j < n := by omega
      simp only [if_pos hle]
      unfold u32max
      rw [Nat.testBit_two_pow_sub_one]
      simp [hjm, hjn]
    · simp only [if_neg hle]
      unfold u32max
      rw [Nat.testBit_land, Nat.testBit_two_pow_sub_one, Nat.testBit_two_pow_sub_one]
      have hiff : j < n ↔ j % 32 < n % 32 := by
        unfold sectors at hidx
        by_cases hm : n % 32 = 0
        · simp [hm] at hidx ⊢
          omega
        · simp [hm] at hidx
          omega
      by_cases hlt : j < n
      · have := hiff.mp hlt
        simp [hjm, this, hlt]
      · have : ¬ j % 32 < n % 32 := fun h => hlt (hiff.mpr h)
        simp [hjm, this, hlt]
  · rw [bitAt_out _ _ (by norm_num) (by rw [new_data_length]; omega)]
    have : ¬ j < n := by
      have := le_32_sectors n
      omega
    simp [this]

theorem new_true_words (n : Nat) : ∀ x ∈ (PointVec.new n true).data, x < 2 ^ 32 := by
  intro x hx
  by_cases hm : n % 32 = 0
  · rw [new_true_data_mod n hm] at hx
    rw [List.eq_of_mem_replicate hx]
    exact u32max_lt
  · rw [new_true_data_nmod n hm] at hx
    rcases mem_modifyLast _ _ _ hx with h | ⟨y, hy, hxy⟩
    · rw [List.eq_of_mem_replicate h]
      exact u32max_lt
    · rw [hxy, List.eq_of_mem_replicate hy]
      exact land_lt_two_pow _ u32max_lt

theorem new_true_count (n : Nat) : (PointVec.new n true).true_count = n := by
  unfold PointVec.new
  simp

theorem Inv_new_true (n : Nat) : Inv n (PointVec.new n true) := by
  refine ⟨new_data_length n true, new_true_words n, ?_, ?_⟩
  · have hco : countOnes32 = goCount 32 := rfl
    rw [hco, sum_map_goCount_eq_card (by norm_num) _ (new_true_words n)]
    have hset : bitsFinset 32 (PointVec.new n true).data = Finset.range n := by
      apply Finset.ext
      intro j
      rw [mem_bitsFinset, Finset.mem_range, bitAt_new_true, new_data_length]
      have := le_32_sectors n
      constructor
      · rintro ⟨_, h2⟩; simpa using h2
      · intro h; exact ⟨by omega, by simpa using h⟩
    rw [hset, Finset.card_range, new_true_count]
  · intro j hj hnj
    rw [bitAt_new_true]
    simp
    omega

theorem map_const_replicate (c : Nat) : ∀ l : List Nat,
    l.map (fun _ => c) = List.replicate l.length c := by
  intro l
  induction l with
  | nil => rfl
  | cons a rest ih => simp [List.replicate, ih]

theorem reset_eq_new (v : PointVec) (n : Nat) (fill : Bool)
    (hlen : v.data.length = sectors n) : v.reset n fill = PointVec.new n fill := by
  unfold PointVec.reset PointVec.new
  simp only [map_const_replicate, hlen]
  unfold sectors
  rfl

theorem getD_mem {l : List Nat} {i : Nat} (h : i < l.length) : l.getD i 0 ∈ l := by
  rw [List.getD_eq_getElem?_getD, List.getElem?_eq_getElem h]
  exact List.getElem_mem h

theorem bitAt_def (v : PointVec) (j : Nat) :
    bitAt 32 v.data j = (v.data.getD (j / 32) 0).testBit (j % 32) := rfl

theorem sector_eq_iff {j k : Nat} :
    (j = k) ↔ (j / 32 = k / 32 ∧ j % 32 = k % 32) := by
  constructor
  · intro h; subst h; exact ⟨rfl, rfl⟩
  · rintro ⟨h1, h2⟩
    have hj := Nat.div_add_mod j 32
    have hk := Nat.div_add_mod k 32
    omega

theorem insert_spec {n : Nat} {v : PointVec} (hv : Inv n v) {k : Nat} (hk : k < n) :
    Inv n (v.insert k) ∧
      (∀ j, bitAt 32 (v.insert k).data j = (bitAt 32 v.data j || decide (j = k))) ∧
      (v.insert k).true_count = v.true_count + (if bitAt 32 v.data k then 0 else 1) := by
  obtain ⟨hlen, hwords, hcount, hhigh⟩ := hv
  have hsec : k / 32 < v.data.length := by rw [hlen]; exact div32_lt_sectors hk
  have hword : v.data.getD (k / 32) 0 < 2 ^ 32 := hwords _ (getD_mem hsec)
  have hb32 : k % 32 < 32 := Nat.mod_lt _ (by norm_num)
  have hmaskbit : (2 : Nat) ^ (k % 32) < 2 ^ 32 :=
    Nat.pow_lt_pow_right (by norm_num) hb32
  have hchar : ∀ j, bitAt 32 (v.insert k).data j =
      (bitAt 32 v.data j || decide (j = k)) := by
    intro j
    unfold PointVec.insert
    rw [bitAt_def, bitAt_def]
    simp only
    rw [getD_set_lemma _ _ hsec]
    by_cases hsj : k / 32 = j / 32
    · rw [if_pos hsj, ← hsj, Nat.testBit_lor, Nat.testBit_two_pow]
      by_cases hmj : j % 32 = k % 32
      · have : j = k := sector_eq_iff.mpr ⟨hsj.symm, hmj⟩
        simp [this, hmj]
      · have hne1 : ¬ j = k := fun h => hmj (sector_eq_iff.mp h).2
        have hne2 : ¬ k % 32 = j % 32 := fun h => hmj h.symm
        simp [hne1, hne2]
    · rw [if_neg hsj]
      have : ¬ j = k := fun h => hsj (sector_eq_iff.mp h).1.symm
      simp [this]
  have hbk : bitAt 32 v.data k = (v.data.getD (k / 32) 0).testBit (k % 32) := rfl
  have hcnt : (v.insert k).true_count =
      v.true_count + (if bitAt 32 v.data k then 0 else 1) := by
    unfold PointVec.insert
    simp only [hbk]
    by_cases htb : (v.data.getD (k / 32) 0).testBit (k % 32)
    · rw [if_pos (land_pow_eq_iff.mpr htb), if_pos htb]
    · rw [if_neg (fun h => htb (land_pow_eq_iff.mp h)), if_neg htb]
  refine ⟨⟨?_, ?_, ?_, ?_⟩, hchar, hcnt⟩
  · unfold PointVec.insert
    simpa using hlen
  · intro x hx
    unfold PointVec.insert at hx
    simp only at hx
    rcases List.mem_or_eq_of_mem_set hx with h | h
    · exact hwords x h
    · rw [h]; exact lor_lt_two_pow hword hmaskbit
  · have hsum := sum_map_set v.data (k / 32)
      (v.data.getD (k / 32) 0 ||| 2 ^ (k % 32)) countOnes32 hsec
    have hco : countOnes32 = goCount 32 := rfl
    have hnew : countOnes32 (v.data.getD (k / 32) 0 ||| 2 ^ (k % 32)) =
        countOnes32 (v.data.getD (k / 32) 0) +
          (if (v.data.getD (k / 32) 0).testBit (k % 32) then 0 else 1) := by
      rw [hco]; exact goCount_lor_pow hword hb32
    rw [hcnt, hcount, hbk]
    unfold PointVec.insert
    simp only
    by_cases htb : (v.data.getD (k / 32) 0).testBit (k % 32) <;> omega
  · intro j hj hnj
    rw [hchar j]
    have h1 : ¬ j = k := by omega
    have hlen2 : (v.insert k).data.length = v.data.length := by
      unfold PointVec.insert; simp
    rw [hlen2] at hj
    rw [hhigh j hj hnj]
    simp [h1]

theorem remove_spec {n : Nat} {v : PointVec} (hv : Inv n v) {k : Nat} (hk : k < n) :
    Inv n (v.remove k) ∧
      (∀ j, bitAt 32 (v.remove k).data j = (bitAt 32 v.data j && !decide (j = k))) ∧
      (v.remove k).true_count = v.true_count - (if bitAt 32 v.data k then 1 else 0) := by
  obtain ⟨hlen, hwords, hcount, hhigh⟩ := hv
  have hsec : k / 32 < v.data.length := by rw [hlen]; exact div32_lt_sectors hk
  have hword : v.data.getD (k / 32) 0 < 2 ^ 32 := hwords _ (getD_mem hsec)
  have hb32 : k % 32 < 32 := Nat.mod_lt _ (by norm_num)
  have hu : u32max = 2 ^ 32 - 1 := rfl
  have hchar : ∀ j, bitAt 32 (v.remove k).data j =
      (bitAt 32 v.data j && !decide (j = k)) := by
    intro j
    unfold PointVec.remove
    rw [bitAt_def, bitAt_def]
    simp only
    rw [getD_set_lemma _ _ hsec]
    by_cases hsj : k / 32 = j / 32
    · rw [if_pos hsj, ← hsj, hu, testBit_clear hword]
      by_cases hmj : j % 32 = k % 32
      · have : j = k := sector_eq_iff.mpr ⟨hsj.symm, hmj⟩
        simp [this, hmj]
      · have hne1 : ¬ j = k := fun h => hmj (sector_eq_iff.mp h).2
        have hne2 : ¬ k % 32 = j % 32 := fun h => hmj h.symm
        simp [hne1, hne2]
    · rw [if_neg hsj]
      have : ¬ j = k := fun h => hsj (sector_eq_iff.mp h).1.symm
      simp [this]
  have hbk : bitAt 32 v.data k = (v.data.getD (k / 32) 0).testBit (k % 32) := rfl
  have hcnt : (v.remove k).true_count =
      v.true_count - (if bitAt 32 v.data k then 1 else 0) := by
    unfold PointVec.remove
    simp only [hbk]
    by_cases htb : (v.data.getD (k / 32) 0).testBit (k % 32)
    · rw [if_pos (land_pow_eq_iff.mpr htb), if_pos htb]
    · rw [if_neg (fun h => htb (land_pow_eq_iff.mp h)), if_neg htb]
  have hco : countOnes32 = goCount 32 := rfl
  have hwordsum : countOnes32 (v.data.getD (k / 32) 0) ≤ (v.data.map countOnes32).sum := by
    apply List.single_le_sum (by intro x _; exact Nat.zero_le x)
    exact List.mem_map_of_mem countOnes32 (getD_mem hsec)
  have honebit : (v.data.getD (k / 32) 0).testBit (k % 32) = true →
      1 ≤ countOnes32 (v.data.getD (k / 32) 0) := by
    intro htb
    rw [hco, goCount_eq_sum _ _ hword]
    have hmem : k % 32 ∈ Finset.range 32 := Finset.mem_range.mpr hb32
    calc 1 = if (v.data.getD (k / 32) 0).testBit (k % 32) then 1 else 0 := by
          rw [htb]; norm_num
    _ ≤ _ := Finset.single_le_sum (f := fun i =>
        if (v.data.getD (k / 32) 0).testBit i then 1 else 0)
        (by intro i _; positivity) hmem
  refine ⟨⟨?_, ?_, ?_, ?_⟩, hchar, hcnt⟩
  · unfold PointVec.remove
    simpa using hlen
  · intro x hx
    unfold PointVec.remove at hx
    simp only at hx
    rcases List.mem_or_eq_of_mem_set hx with h | h
    · exact hwords x h
    · rw [h]; exact land_lt_two_pow _ hword
  · have hsum := sum_map_set v.data (k / 32)
      (v.data.getD (k / 32) 0 &&& (2 ^ (k % 32) ^^^ u32max)) countOnes32 hsec
    have hnew : countOnes32 (v.data.getD (k / 32) 0 &&& (2 ^ (k % 32) ^^^ u32max)) +
        (if (v.data.getD (k / 32) 0).testBit (k % 32) then 1 else 0) =
        countOnes32 (v.data.getD (k / 32) 0) := by
      rw [hco, hu]; exact goCount_clear hword hb32
    rw [hcnt, hcount, hbk]
    unfold PointVec.remove
    simp only
    by_cases htb : (v.data.getD (k / 32) 0).testBit (k % 32)
    · have := honebit htb
      simp only [htb, if_pos] at hnew ⊢
      omega
    · simp only [htb, if_neg] at hnew ⊢
      simp only [Bool.false_eq_true, if_false] at hnew ⊢
      omega
  · intro j hj hnj
    rw [hchar j]
    have hlen2 : (v.remove k).data.length = v.data.length := by
      unfold PointVec.remove; simp
    rw [hlen2] at hj
    rw [hhigh j hj hnj]
    simp

theorem zipWith_snd_eq : ∀ as2 bs : List Nat, as2.length = bs.length →
    List.zipWith (fun _lhs rhs => rhs) as2 bs = bs := by
  intro as2
  induction as2 with
  | nil => intro bs h; cases bs with | nil => rfl | cons b bs => simp at h
  | cons a rest ih =>
    intro bs h
    cases bs with
    | nil => simp at h
    | cons b bs2 => simpa using ih bs2 (by simpa using h)

theorem copy_eq (v src : PointVec) (hlen : v.data.length = src.data.length) :
    v.copy src = src := by
  cases src with
  | mk d c =>
    unfold PointVec.copy
    simp only at hlen ⊢
    rw [zipWith_snd_eq _ _ hlen, ← hlen, List.drop_length, List.append_nil]

theorem subtract_data_length (v r : PointVec) :
    (v.subtract r).data.length = v.data.length := by
  unfold PointVec.subtract
  simp only [List.length_append, List.length_zipWith, List.length_drop]
  rcases Nat.le_total v.data.length r.data.length with h | h
  · rw [min_eq_left h]; omega
  · rw [min_eq_right h]; omega

theorem subtract_getD {v r : PointVec} (hlen : r.data.length = v.data.length)
    {i : Nat} (hi : i < v.data.length) :
    (v.subtract r).data.getD i 0 =
      (v.data.getD i 0 &&& (r.data.getD i 0 ^^^ u32max)) := by
  unfold PointVec.subtract
  simp only
  have hzl : i < (List.zipWith (fun lhs r2 => lhs &&& (r2 ^^^ u32max)) v.data r.data).length := by
    rw [List.length_zipWith, hlen, min_self]
    exact hi
  rw [List.getD_eq_getElem?_getD, List.getElem?_append, if_pos hzl]
  rw [List.getElem?_zipWith, List.getElem?_eq_getElem hi,
    List.getElem?_eq_getElem (by rw [hlen]; exact hi)]
  rw [List.getD_eq_getElem?_getD, List.getD_eq_getElem?_getD,
    List.getElem?_eq_getElem hi, List.getElem?_eq_getElem (by rw [hlen]; exact hi)]
  rfl

theorem subtract_spec {n : Nat} {v r : PointVec} (hv : Inv n v) (hr : Inv n r) :
    Inv n (v.subtract r) ∧
      ∀ j, bitAt 32 (v.subtract r).data j = (bitAt 32 v.data j && !bitAt 32 r.data j) := by
  obtain ⟨hlen, hwords, hcount, hhigh⟩ := hv
  obtain ⟨hrlen, hrwords, _, _⟩ := hr
  have hrl : r.data.length = v.data.length := by rw [hrlen, hlen]
  have hslen : (v.subtract r).data.length = v.data.length := subtract_data_length v r
  have hchar : ∀ j, bitAt 32 (v.subtract r).data j =
      (bitAt 32 v.data j && !bitAt 32 r.data j) := by
    intro j
    by_cases hj : j / 32 < v.data.length
    · rw [bitAt_def, bitAt_def, bitAt_def, subtract_getD hrl hj]
      have hword : v.data.getD (j / 32) 0 < 2 ^ 32 := hwords _ (getD_mem hj)
      have hu : u32max = 2 ^ 32 - 1 := rfl
      rw [hu]
      exact testBit_subword hword _
    · have h1 : bitAt 32 (v.subtract r).data j = false := by
        rw [bitAt_def, List.getD_eq_default _ _ (by rw [hslen]; omega)]
        exact Nat.zero_testBit _
      have h2 : bitAt 32 v.data j = false := by
        rw [bitAt_def, List.getD_eq_default _ _ (by omega)]
        exact Nat.zero_testBit _
      rw [h1, h2]
      rfl
  have hdata : (v.subtract r).data =
      v.data.zipWith (fun lhs r2 => lhs &&& (r2 ^^^ u32max)) r.data := by
    unfold PointVec.subtract
    simp only
    rw [hrl, List.drop_length, List.append_nil]
  refine ⟨⟨?_, ?_, ?_, ?_⟩, hchar⟩
  · rw [hslen, hlen]
  · intro x hx
    rw [hdata] at hx
    rw [List.mem_iff_getElem] at hx
    obtain ⟨i, hilen, hig⟩ := hx
    have hmin : i < v.data.length ⊓ r.data.length := by
      rw [← List.length_zipWith (fun lhs r2 => lhs &&& (r2 ^^^ u32max))]
      exact hilen
    have hiv : i < v.data.length := lt_of_lt_of_le hmin (min_le_left _ _)
    have hir : i < r.data.length := lt_of_lt_of_le hmin (min_le_right _ _)
    have hgz := @List.getElem?_zipWith Nat Nat Nat v.data r.data
      (fun lhs r2 => lhs &&& (r2 ^^^ u32max)) i
    rw [List.getElem?_eq_getElem hilen, List.getElem?_eq_getElem hiv,
      List.getElem?_eq_getElem hir] at hgz
    simp only [Option.some.injEq] at hgz
    rw [hig] at hgz
    rw [hgz]
    exact land_lt_two_pow _ (hwords _ (List.getElem_mem hiv))
  · unfold PointVec.subtract
    simp only
    rw [hrl, List.drop_length, List.append_nil]
  · intro j hj hnj
    rw [hchar j]
    rw [hslen] at hj
    rw [hhigh j hj hnj]
    rfl

theorem findIdx?_some_spec (p : Nat → Bool) : ∀ (l : List Nat) (s i : Nat),
    List.findIdx? p l s = some i →
    s ≤ i ∧ i - s < l.length ∧ p (l.getD (i - s) 0) = true := by
  intro l
  induction l with
  | nil => intro s i h; simp [List.findIdx?] at h
  | cons a rest ih =>
    intro s i h
    unfold List.findIdx? at h
    by_cases hpa : p a
    · rw [if_pos hpa] at h
      cases h
      refine ⟨Nat.le_refl s, by simp, ?_⟩
      simp [hpa]
    · rw [if_neg hpa] at h
      obtain ⟨h1, h2, h3⟩ := ih (s + 1) i h
      refine ⟨by omega, by simp; omega, ?_⟩
      have heq : i - s = (i - (s + 1)) + 1 := by omega
      rw [heq, List.getD_cons_succ]
      exact h3

theorem findIdx?_isSome (p : Nat → Bool) : ∀ (l : List Nat) (s : Nat),
    (∃ x ∈ l, p x = true) → (List.findIdx? p l s).isSome := by
  intro l
  induction l with
  | nil => intro s h; simp at h
  | cons a rest ih =>
    intro s h
    unfold List.findIdx?
    by_cases hpa : p a
    · rw [if_pos hpa]
      rfl
    · rw [if_neg hpa]
      obtain ⟨x, hx, hpx⟩ := h
      rcases List.mem_cons.mp hx with rfl | hx2
      · exact absurd hpx hpa
      · exact ih (s + 1) ⟨x, hx2, hpx⟩

theorem next_some {n : Nat} {v : PointVec} (hv : Inv n v) {k : Nat}
    (h : v.next = some k) : bitAt 32 v.data k = true ∧ k < n := by
  obtain ⟨hlen, hwords, hcount, hhigh⟩ := hv
  unfold PointVec.next at h
  cases hf : v.data.findIdx? (fun value => value != 0) with
  | none => rw [hf] at h; simp at h
  | some i =>
    rw [hf] at h
    have hkval : k = 32 * i + ctz32 (v.data.getD i 0) := (Option.some.inj h).symm
    have hspec := findIdx?_some_spec _ v.data 0 i hf
    simp only [Nat.sub_zero, Nat.zero_le, true_and] at hspec
    obtain ⟨hilen, hpw⟩ := hspec
    have hwne : v.data.getD i 0 ≠ 0 := by simpa using hpw
    have hword : v.data.getD i 0 < 2 ^ 32 := hwords _ (getD_mem hilen)
    have hpos : 0 < v.data.getD i 0 := Nat.pos_of_ne_zero hwne
    have htb := goCtz_testBit 32 _ hpos hword
    have hctz : goCtz 32 (v.data.getD i 0) < 32 := goCtz_lt hpos hword
    have hdiv : k / 32 = i := by
      rw [hkval]
      unfold ctz32
      rw [Nat.mul_add_div (by norm_num)]
      have : goCtz 32 (v.data.getD i 0) / 32 = 0 := Nat.div_eq_of_lt hctz
      omega
    have hmod : k % 32 = ctz32 (v.data.getD i 0) := by
      rw [hkval, Nat.mul_add_mod]
      exact Nat.mod_eq_of_lt hctz
    have hbit : bitAt 32 v.data k = true := by
      rw [bitAt_def, hdiv, hmod]
      exact htb
    refine ⟨hbit, ?_⟩
    by_contra hkn
    have hk32 : k < 32 * v.data.length := by
      have : k / 32 < v.data.length := by rw [hdiv]; exact hilen
      have h2 := Nat.div_add_mod k 32
      have h3 : k % 32 < 32 := Nat.mod_lt _ (by norm_num)
      have h4 : k / 32 + 1 ≤ v.data.length := this
      calc k < 32 * (k / 32 + 1) := by omega
      _ ≤ 32 * v.data.length := by
          exact Nat.mul_le_mul_left 32 h4
    rw [hhigh k hk32 (by omega)] at hbit
    exact Bool.false_ne_true hbit

theorem next_isSome {n : Nat} {v : PointVec} (hv : Inv n v)
    (h : v.true_count ≠ 0) : v.next.isSome := by
  obtain ⟨hlen, hwords, hcount, hhigh⟩ := hv
  rw [hcount] at h
  have hex : ∃ x ∈ v.data, (x != 0) = true := by
    by_contra hall
    push_neg at hall
    apply h
    apply List.sum_eq_zero
    intro y hy
    rcases List.mem_map.mp hy with ⟨x, hx, hxy⟩
    have : ¬ (x != 0) = true := hall x hx
    have hx0 : x = 0 := by simpa using this
    rw [← hxy, hx0]
    exact countOnes32_zero
  have := findIdx?_isSome _ v.data 0 hex
  unfold PointVec.next
  cases hf : v.data.findIdx? (fun value => value != 0) with
  | none => rw [hf] at this; simp at this
  | some i => simp

theorem mem_lt {n : Nat} {v : PointVec} (hv : Inv n v) {j : Nat}
    (h : bitAt 32 v.data j = true) : j < n := by
  obtain ⟨hlen, hwords, hcount, hhigh⟩ := hv
  by_contra hjn
  by_cases hj32 : j < 32 * v.data.length
  · rw [hhigh j hj32 (by omega)] at h
    exact Bool.false_ne_true h
  · rw [bitAt_out _ _ (by norm_num) (by omega)] at h
    exact Bool.false_ne_true h

theorem count_eq_card {n : Nat} {v : PointVec} (hv : Inv n v) :
    v.true_count = (bitsFinset 32 v.data).card := by
  obtain ⟨hlen, hwords, hcount, hhigh⟩ := hv
  rw [hcount]
  have hco : countOnes32 = goCount 32 := rfl
  rw [hco]
  exact sum_map_goCount_eq_card (by norm_num) _ hwords

theorem sumData_remove_lt {n : Nat} {v : PointVec} (hv : Inv n v) {k : Nat}
    (hk : k < n) (hb : bitAt 32 v.data k = true) :
    sumData (v.remove k) < sumData v := by
  obtain ⟨hlen, hwords, hcount, hhigh⟩ := hv
  have hsec : k / 32 < v.data.length := by rw [hlen]; exact div32_lt_sectors hk
  have hword : v.data.getD (k / 32) 0 < 2 ^ 32 := hwords _ (getD_mem hsec)
  have htb : (v.data.getD (k / 32) 0).testBit (k % 32) = true := hb
  have hu : u32max = 2 ^ 32 - 1 := rfl
  have hlt : v.data.getD (k / 32) 0 &&& (2 ^ (k % 32) ^^^ u32max) <
      v.data.getD (k / 32) 0 := by
    rw [hu]
    exact clear_lt_of_testBit hword htb
  have hsum := sum_map_set v.data (k / 32)
    (v.data.getD (k / 32) 0 &&& (2 ^ (k % 32) ^^^ u32max)) (fun x => x) hsec
  unfold sumData PointVec.remove
  simp only
  have hsum2 : (v.data.set (k / 32)
        (v.data.getD (k / 32) 0 &&& (2 ^ (k % 32) ^^^ u32max))).sum +
      v.data.getD (k / 32) 0 =
      v.data.sum + (v.data.getD (k / 32) 0 &&& (2 ^ (k % 32) ^^^ u32max)) := by
    simpa using hsum
  omega

theorem sumData_subtract_le (v r : PointVec) (hwords : ∀ x ∈ v.data, x < 2 ^ 32) :
    sumData (v.subtract r) ≤ sumData v := by
  unfold sumData PointVec.subtract
  simp only
  rw [List.sum_append]
  have hzip : ∀ (as2 bs : List Nat), (∀ x ∈ as2, x < 2 ^ 32) →
      (List.zipWith (fun lhs r2 => lhs &&& (r2 ^^^ u32max)) as2 bs).sum +
        (as2.drop bs.length).sum ≤ as2.sum := by
    intro as2
    induction as2 with
    | nil => intro bs _; simp
    | cons a rest ih =>
      intro bs hw
      cases bs with
      | nil => simp
      | cons b bs2 =>
        have hstep : (List.zipWith (fun lhs r2 => lhs &&& (r2 ^^^ u32max))
            (a :: rest) (b :: bs2)).sum =
            (a &&& (b ^^^ u32max)) +
              (List.zipWith (fun lhs r2 => lhs &&& (r2 ^^^ u32max)) rest bs2).sum := by
          simp
        rw [hstep]
        simp only [List.length_cons, List.drop_succ_cons, List.sum_cons]
        have h1 : a &&& (b ^^^ u32max) ≤ a := by
          have hu : u32max = 2 ^ 32 - 1 := rfl
          rw [hu]
          exact subword_le (hw a (List.mem_cons_self a rest))
        have h2 := ih bs2 (fun x hx => hw x (List.mem_cons_of_mem a hx))
        omega
  exact hzip v.data r.data hwords

/-! ## Adjacency matrix lemmas -/

theorem adj_data_length {Q : Type} [LinearOrderedCommRing Q] (n : Nat)
    (dm : List (List Q)) (t : Q) : (AdjacencyMatrix.new n dm t).data.length = n := by
  unfold AdjacencyMatrix.new
  simp

theorem adjRow_fold_spec {Q : Type} [LinearOrderedCommRing Q] (t : Q) (n : Nat) :
    ∀ (l : List (Nat × Q)) (v : PointVec), Inv n v → (∀ pd ∈ l, pd.1 < n) →
    Inv n (l.foldl (fun row pd => if pd.2 ≤ t then row.insert pd.1 else row) v) ∧
      ∀ j, bitAt 32 (l.foldl (fun row pd =>
          if pd.2 ≤ t then row.insert pd.1 else row) v).data j =
        (bitAt 32 v.data j || l.any (fun pd => decide (pd.1 = j) && decide (pd.2 ≤ t))) := by
  intro l
  induction l with
  | nil =>
    intro v hv _
    exact ⟨hv, fun j => by simp⟩
  | cons pd rest ih =>
    intro v hv hbound
    have hpd : pd.1 < n := hbound pd (List.mem_cons_self _ _)
    have hrest : ∀ qd ∈ rest, qd.1 < n := fun qd hq => hbound qd (List.mem_cons_of_mem _ hq)
    by_cases hle : pd.2 ≤ t
    · obtain ⟨hinv2, hchar2, _⟩ := insert_spec hv hpd
      obtain ⟨hinv3, hchar3⟩ := ih (v.insert pd.1) hinv2 hrest
      constructor
      · simpa [List.foldl_cons, hle] using hinv3
      · intro j
        have h1 : (rest.foldl (fun row qd => if qd.2 ≤ t then row.insert qd.1 else row)
            (v.insert pd.1)) = ((pd :: rest).foldl (fun row qd =>
            if qd.2 ≤ t then row.insert qd.1 else row) v) := by
          simp [List.foldl_cons, hle]
        rw [← h1, hchar3 j, hchar2 j, List.any_cons]
        have : (decide (pd.1 = j) && decide (pd.2 ≤ t)) = decide (j = pd.1) := by
          by_cases hj : pd.1 = j
          · simp [hj, hle, eq_comm]
          · have hj2 : ¬ j = pd.1 := fun h => hj h.symm
            simp [hj, hj2]
        rw [this]
        cases bitAt 32 v.data j <;> cases hd : decide (j = pd.1) <;> simp [hd]
    · obtain ⟨hinv3, hchar3⟩ := ih v hv hrest
      constructor
      · simpa [List.foldl_cons, hle] using hinv3
      · intro j
        have h1 : (rest.foldl (fun row qd => if qd.2 ≤ t then row.insert qd.1 else row) v) =
            ((pd :: rest).foldl (fun row qd =>
            if qd.2 ≤ t then row.insert qd.1 else row) v) := by
          simp [List.foldl_cons, hle]
        rw [← h1, hchar3 j, List.any_cons]
        have : (decide (pd.1 = j) && decide (pd.2 ≤ t)) = false := by simp [hle]
        rw [this]
        simp

theorem mem_enumFrom_intro {Q : Type} (dflt : Q) :
    ∀ (l : List Q) (s j : Nat), j < l.length → (s + j, l.getD j dflt) ∈ List.enumFrom s l := by
  intro l
  induction l with
  | nil => intro s j h; simp at h
  | cons a rest ih =>
    intro s j h
    cases j with
    | zero => simp [List.enumFrom]
    | succ j =>
      have := ih (s + 1) j (by simpa using h)
      have heq : s + (j + 1) = (s + 1) + j := by omega
      rw [heq, List.getD_cons_succ]
      exact List.mem_cons_of_mem _ this

theorem mem_enum_intro {Q : Type} (dflt : Q) (l : List Q) (j : Nat) (h : j < l.length) :
    (j, l.getD j dflt) ∈ l.enum := by
  have := mem_enumFrom_intro dflt l 0 j h
  simpa using this

theorem rowOf_new {Q : Type} [LinearOrderedCommRing Q] (n : Nat) (dm : List (List Q))
    (t : Q) {i : Nat} (hi : i < n) :
    rowOf (AdjacencyMatrix.new n dm t) i =
      ((dm.getD i []).enum).foldl
        (fun row pd => if pd.2 ≤ t then row.insert pd.1 else row)
        (PointVec.new n false) := by
  unfold rowOf AdjacencyMatrix.new
  simp only
  rw [getD_map_range _ _ _ _ hi]

theorem getD_mem_general {α : Type} (d : α) : ∀ {l : List α} {i : Nat}, i < l.length →
    l.getD i d ∈ l := by
  intro l
  induction l with
  | nil => intro i h; simp at h
  | cons a rest ih =>
    intro i h
    cases i with
    | zero => simp
    | succ i => simpa using List.mem_cons_of_mem a (ih (by simpa using h))

theorem adjacency_spec {Q : Type} [LinearOrderedCommRing Q] (n : Nat) (dm : List (List Q))
    (t : Q) (hrows : ∀ row ∈ dm, row.length ≤ n) :
    AdjOK n (AdjacencyMatrix.new n dm t) ∧
      ∀ i j, i < n →
        (adjMem (AdjacencyMatrix.new n dm t) i j ↔
          j < (dm.getD i []).length ∧ (dm.getD i []).getD j 0 ≤ t) := by
  have hrowlen : ∀ i, (dm.getD i []).length ≤ n := by
    intro i
    by_cases hi : i < dm.length
    · exact hrows _ (getD_mem_general [] hi)
    · rw [List.getD_eq_default _ _ (by omega)]
      simp
  have hbound : ∀ i, ∀ pd ∈ (dm.getD i []).enum, pd.1 < n := by
    intro i pd hpd
    rcases pd with ⟨j, d⟩
    have := List.mem_enum hpd
    have h2 := hrowlen i
    omega
  have hrowspec : ∀ i, i < n →
      Inv n (rowOf (AdjacencyMatrix.new n dm t) i) ∧
      ∀ j, bitAt 32 (rowOf (AdjacencyMatrix.new n dm t) i).data j =
        (((dm.getD i []).enum).any (fun pd => decide (pd.1 = j) && decide (pd.2 ≤ t))) := by
    intro i hi
    rw [rowOf_new n dm t hi]
    obtain ⟨h1, h2⟩ := adjRow_fold_spec t n ((dm.getD i []).enum) (PointVec.new n false)
      (Inv_new_false n) (hbound i)
    refine ⟨h1, fun j => ?_⟩
    rw [h2 j, bitAt_new_false]
    simp
  constructor
  · constructor
    · exact adj_data_length n dm t
    · intro row hrow
      rw [List.mem_iff_getElem] at hrow
      obtain ⟨i, hilen, hig⟩ := hrow
      rw [adj_data_length] at hilen
      have := (hrowspec i hilen).1
      rw [rowOf] at this
      rw [List.getD_eq_getElem?_getD, List.getElem?_eq_getElem
        (by rw [adj_data_length]; exact hilen)] at this
      simp only [Option.getD_some] at this
      rw [hig] at this
      exact this
  · intro i j hi
    obtain ⟨_, hchar⟩ := hrowspec i hi
    unfold adjMem mem
    rw [hchar j]
    rw [List.any_eq_true]
    constructor
    · rintro ⟨⟨jj, d⟩, hmem, hpred⟩
      simp only [Bool.and_eq_true, decide_eq_true_eq] at hpred
      obtain ⟨hj, hd⟩ := hpred
      subst hj
      obtain ⟨hjl, hdval⟩ := List.mem_enum hmem
      constructor
      · exact hjl
      · rw [List.getD_eq_getElem?_getD, List.getElem?_eq_getElem hjl]
        simp only [Option.getD_some]
        rw [← hdval]
        exact hd
    · rintro ⟨hjl, hd⟩
      refine ⟨(j, (dm.getD i []).getD j 0), mem_enum_intro 0 _ j hjl, ?_⟩
      rw [Bool.and_eq_true, decide_eq_true_eq, decide_eq_true_eq]
      exact ⟨rfl, hd⟩

theorem distance_matrix_rows_length {Q : Type} [LinearOrderedCommRing Q]
    (pts : List (Point Q)) : ∀ row ∈ distance_matrix pts, row.length = pts.length := by
  intro row hrow
  unfold distance_matrix at hrow
  rcases List.mem_map.mp hrow with ⟨a, _, hrow2⟩
  rw [← hrow2]
  simp

theorem distance_matrix_length {Q : Type} [LinearOrderedCommRing Q]
    (pts : List (Point Q)) : (distance_matrix pts).length = pts.length := by
  unfold distance_matrix
  simp

theorem distance_matrix_entry {Q : Type} [LinearOrderedCommRing Q]
    (pts : List (Point Q)) {i j : Nat} (hi : i < pts.length) (hj : j < pts.length) :
    ((distance_matrix pts).getD i []).getD j 0 = pdist pts i j := by
  unfold pdist
  have hrow : (distance_matrix pts).getD i [] =
      pts.map (fun b => Point.get_distance_sq pts[i] b) := by
    unfold distance_matrix
    rw [List.getD_eq_getElem?_getD, List.getElem?_map, List.getElem?_eq_getElem hi]
    rfl
  rw [hrow, List.getD_eq_getElem?_getD, List.getElem?_map, List.getElem?_eq_getElem hj]
  rw [List.getD_eq_getElem?_getD, List.getD_eq_getElem?_getD,
    List.getElem?_eq_getElem hi, List.getElem?_eq_getElem hj]
  rfl

theorem pdist_symm {Q : Type} [LinearOrderedCommRing Q] (pts : List (Point Q))
    (i j : Nat) : pdist pts i j = pdist pts j i := by
  unfold pdist Point.get_distance_sq
  ring

theorem adjacency_symm {Q : Type} [LinearOrderedCommRing Q] (pts : List (Point Q))
    (t : Q) : SymmAdj pts.length
      (AdjacencyMatrix.new pts.length (distance_matrix pts) t) := by
  intro i j hi hj
  obtain ⟨_, hchar⟩ := adjacency_spec pts.length (distance_matrix pts) t
    (fun row hrow => le_of_eq (distance_matrix_rows_length pts row hrow))
  have hrl : ∀ k, k < pts.length → ((distance_matrix pts).getD k []).length = pts.length := by
    intro k hk
    apply distance_matrix_rows_length
    apply getD_mem_general
    rw [distance_matrix_length]
    exact hk
  rw [hchar i j hi, hchar j i hj, hrl i hi, hrl j hj,
    distance_matrix_entry pts hi hj, distance_matrix_entry pts hj hi,
    pdist_symm pts i j]
  tauto

theorem adjacency_antitone {Q : Type} [LinearOrderedCommRing Q] {n : Nat}
    {dm : List (List Q)} {s t : Q} (hst : s ≤ t)
    (hrows : ∀ row ∈ dm, row.length ≤ n) {i j : Nat} (hi : i < n)
    (h : adjMem (AdjacencyMatrix.new n dm s) i j) :
    adjMem (AdjacencyMatrix.new n dm t) i j := by
  obtain ⟨_, hcharS⟩ := adjacency_spec n dm s hrows
  obtain ⟨_, hcharT⟩ := adjacency_spec n dm t hrows
  rw [hcharS i j hi] at h
  rw [hcharT i j hi]
  exact ⟨h.1, le_trans h.2 hst⟩

theorem adjMem_lt {n : Nat} {adj : AdjacencyMatrix} (hadj : AdjOK n adj) {i j : Nat}
    (h : adjMem adj i j) : j < n := by
  obtain ⟨hlen, hrows⟩ := hadj
  unfold adjMem rowOf at h
  by_cases hi : i < adj.data.length
  · exact mem_lt (hrows _ (getD_mem_general emptyRow hi)) h
  · rw [List.getD_eq_default _ _ (by omega)] at h
    unfold mem emptyRow at h
    unfold bitAt at h
    simp at h

/-! ## Search state lemmas -/

theorem sdInv_new (n : Nat) (adj : AdjacencyMatrix) : sdInv n adj (SolveData.new n) := by
  refine ⟨Inv_new_false n, Inv_new_true n, ?_, ?_, ?_⟩
  · intro j hj
    have := hj.1
    unfold SolveData.new mem at this
    simp only at this
    rw [bitAt_new_false] at this
    exact Bool.false_ne_true this
  · intro i j hi _
    unfold SolveData.new mem at hi
    simp only at hi
    rw [bitAt_new_false] at hi
    exact absurd hi Bool.false_ne_true
  · intro i j hi _ _
    unfold SolveData.new mem at hi
    simp only at hi
    rw [bitAt_new_false] at hi
    exact absurd hi Bool.false_ne_true

theorem exclude_sdInv {n : Nat} {adj : AdjacencyMatrix} {sd : SolveData} {pt : Nat}
    (hsd : sdInv n adj sd) (hbit : mem sd.remaining_points pt) (hpt : pt < n) :
    sdInv n adj ⟨sd.selected_points, sd.remaining_points.remove pt⟩ := by
  obtain ⟨hsel, hrem, hdisj, hsep, hfar⟩ := hsd
  obtain ⟨hrem2, hchar2, _⟩ := remove_spec hrem hpt
  refine ⟨hsel, hrem2, ?_, ?_, hfar⟩
  · intro j hj
    have h2 : mem (sd.remaining_points.remove pt) j := hj.2
    unfold mem at h2
    rw [hchar2 j] at h2
    exact hdisj j ⟨hj.1, (Bool.and_eq_true_iff.mp h2).1⟩
  · intro i j hi hj
    unfold mem at hj
    rw [hchar2 j] at hj
    exact hsep i j hi (Bool.and_eq_true_iff.mp hj).1

theorem include_sdInv {n : Nat} {adj : AdjacencyMatrix} {sd : SolveData} {pt : Nat}
    (hadj : AdjOK n adj) (hsym : SymmAdj n adj) (hsd : sdInv n adj sd)
    (hbit : mem sd.remaining_points pt) (hpt : pt < n) :
    sdInv n adj ⟨sd.selected_points.insert pt,
        (sd.remaining_points.remove pt).subtract (adj.data.getD pt emptyRow)⟩ ∧
      (sd.selected_points.insert pt).true_count = sd.selected_points.true_count + 1 := by
  obtain ⟨hsel, hrem, hdisj, hsep, hfar⟩ := hsd
  obtain ⟨hselI, hselChar, hselCount⟩ := insert_spec hsel hpt
  obtain ⟨hremR, hremRChar, _⟩ := remove_spec hrem hpt
  have hrowInv : Inv n (adj.data.getD pt emptyRow) := by
    apply hadj.2
    apply getD_mem_general
    rw [hadj.1]
    exact hpt
  obtain ⟨hremS, hremSChar⟩ := subtract_spec hremR hrowInv
  have hnotsel : ¬ mem sd.selected_points pt := fun h => hdisj pt ⟨h, hbit⟩
  have hcount : (sd.selected_points.insert pt).true_count =
      sd.selected_points.true_count + 1 := by
    rw [hselCount]
    unfold mem at hnotsel
    have : bitAt 32 sd.selected_points.data pt = false := by
      cases h : bitAt 32 sd.selected_points.data pt with
      | false => rfl
      | true => exact absurd h hnotsel
    rw [this]
    simp
  have hmemSel : ∀ j, mem (sd.selected_points.insert pt) j ↔
      (mem sd.selected_points j ∨ j = pt) := by
    intro j
    unfold mem
    rw [hselChar j]
    simp
  have hmemRem : ∀ j, mem ((sd.remaining_points.remove pt).subtract
      (adj.data.getD pt emptyRow)) j →
      mem sd.remaining_points j ∧ j ≠ pt ∧ ¬ adjMem adj pt j := by
    intro j hj
    unfold mem at hj
    rw [hremSChar j] at hj
    obtain ⟨h1, h2⟩ := Bool.and_eq_true_iff.mp hj
    rw [hremRChar j] at h1
    obtain ⟨h3, h4⟩ := Bool.and_eq_true_iff.mp h1
    refine ⟨h3, ?_, ?_⟩
    · intro h; rw [h] at h4; simp at h4
    · intro hadjm
      unfold adjMem rowOf mem at hadjm
      rw [hadjm] at h2
      simp at h2
  have hselmem_lt : ∀ i, mem sd.selected_points i → i < n := fun i hi => mem_lt hsel hi
  refine ⟨⟨hselI, hremS, ?_, ?_, ?_⟩, hcount⟩
  · intro j hj
    obtain ⟨hjs, hjr⟩ := hj
    obtain ⟨hjrem, hjne, _⟩ := hmemRem j hjr
    rcases (hmemSel j).mp hjs with h | h
    · exact hdisj j ⟨h, hjrem⟩
    · exact hjne h
  · intro i j hi hj
    obtain ⟨hjrem, hjne, hjadj⟩ := hmemRem j hj
    rcases (hmemSel i).mp hi with h | h
    · exact hsep i j h hjrem
    · rw [h]; exact hjadj
  · intro i j hi hj hij
    rcases (hmemSel i).mp hi with h1 | h1 <;> rcases (hmemSel j).mp hj with h2 | h2
    · exact hfar i j h1 h2 hij
    · rw [h2]
      exact hsep i pt h1 hbit
    · rw [h1]
      intro hadjm
      have hjn : j < n := hselmem_lt j h2
      have := (hsym pt j hpt hjn).mp hadjm
      exact hsep j pt h2 hbit this
    · rw [h1, h2] at hij
      exact absurd rfl hij

theorem search_sound {n : Nat} {adj : AdjacencyMatrix} {p : Nat}
    (hadj : AdjOK n adj) (hsym : SymmAdj n adj) :
    ∀ (fuel : Nat) (sd : SolveData) (idx len : Nat) (r : SolveData),
      sdInv n adj sd → sd.selected_points.true_count ≤ p →
      search sd idx len adj p fuel = Except.ok (some r) →
      Inv n r.selected_points ∧ r.selected_points.true_count = p ∧
        ∀ i j, mem r.selected_points i → mem r.selected_points j → i ≠ j →
          ¬adjMem adj i j := by
  intro fuel
  induction fuel with
  | zero => intro sd idx len r _ _ hrun; exact absurd hrun (by simp [search])
  | succ f ih =>
    intro sd idx len r hsd hcount hrun
    rw [search] at hrun
    by_cases h1 : sd.selected_points.len ≥ p
    · rw [if_pos h1] at hrun
      injection hrun with h
      injection h with h2
      subst h2
      have hcnt : sd.selected_points.true_count = p := by
        unfold PointVec.len at h1
        omega
      exact ⟨hsd.1, hcnt, hsd.2.2.2.2⟩
    · rw [if_neg h1] at hrun
      by_cases h2 : sd.remaining_points.len < p - sd.selected_points.len
      · rw [if_pos h2] at hrun
        exact absurd hrun (by simp)
      · rw [if_neg h2] at hrun
        cases hnext : sd.remaining_points.next with
        | none =>
          rw [hnext] at hrun
          exact absurd hrun (by simp)
        | some pt =>
          rw [hnext] at hrun
          obtain ⟨hbit, hptn⟩ := next_some hsd.2.1 hnext
          simp only at hrun
          by_cases h3 : idx < len
          · rw [if_pos h3] at hrun
            obtain ⟨hchildInv, hchildCount⟩ := include_sdInv hadj hsym hsd hbit hptn
            have hcountlt : sd.selected_points.true_count < p := by
              unfold PointVec.len at h1
              omega
            cases hinc : search ⟨sd.selected_points.insert pt,
                (sd.remaining_points.remove pt).subtract (adj.data.getD pt emptyRow)⟩
                (idx + 1) len adj p f with
            | error e =>
              rw [hinc] at hrun
              exact absurd hrun (by simp)
            | ok oinc =>
              cases oinc with
              | some result =>
                rw [hinc] at hrun
                simp only at hrun
                injection hrun with h
                injection h with h4
                subst h4
                exact ih _ (idx + 1) len _ hchildInv (by rw [hchildCount]; omega) hinc
              | none =>
                rw [hinc] at hrun
                simp only at hrun
                exact ih _ idx len _ (exclude_sdInv hsd hbit hptn) (by simpa using hcount)
                  hrun
          · rw [if_neg h3] at hrun
            exact absurd hrun (by simp)

theorem search_stack {n : Nat} {adj : AdjacencyMatrix} {p : Nat}
    (hadj : AdjOK n adj) (hsym : SymmAdj n adj) :
    ∀ (fuel : Nat) (sd : SolveData) (idx len : Nat) (r : SolveData),
      sdInv n adj sd →
      search sd idx len adj p fuel = Except.ok (some r) →
      p ≤ sd.selected_points.true_count ∨
        idx + p ≤ len + sd.selected_points.true_count := by
  intro fuel
  induction fuel with
  | zero => intro sd idx len r _ hrun; exact absurd hrun (by simp [search])
  | succ f ih =>
    intro sd idx len r hsd hrun
    rw [search] at hrun
    by_cases h1 : sd.selected_points.len ≥ p
    · unfold PointVec.len at h1
      exact Or.inl h1
    · rw [if_neg h1] at hrun
      by_cases h2 : sd.remaining_points.len < p - sd.selected_points.len
      · rw [if_pos h2] at hrun
        exact absurd hrun (by simp)
      · rw [if_neg h2] at hrun
        cases hnext : sd.remaining_points.next with
        | none =>
          rw [hnext] at hrun
          exact absurd hrun (by simp)
        | some pt =>
          rw [hnext] at hrun
          obtain ⟨hbit, hptn⟩ := next_some hsd.2.1 hnext
          simp only at hrun
          by_cases h3 : idx < len
          · rw [if_pos h3] at hrun
            obtain ⟨hchildInv, hchildCount⟩ := include_sdInv hadj hsym hsd hbit hptn
            have hcountlt : sd.selected_points.true_count < p := by
              unfold PointVec.len at h1
              omega
            cases hinc : search ⟨sd.selected_points.insert pt,
                (sd.remaining_points.remove pt).subtract (adj.data.getD pt emptyRow)⟩
                (idx + 1) len adj p f with
            | error e =>
              rw [hinc] at hrun
              exact absurd hrun (by simp)
            | ok oinc =>
              cases oinc with
              | some result =>
                rw [hinc] at hrun
                rcases ih _ (idx + 1) len result hchildInv hinc with h | h
                · rw [hchildCount] at h
                  right
                  omega
                · rw [hchildCount] at h
                  right
                  omega
              | none =>
                rw [hinc] at hrun
                simp only at hrun
                rcases ih _ idx len r (exclude_sdInv hsd hbit hptn) hrun with h | h
                · exact Or.inl h
                · exact Or.inr h
          · rw [if_neg h3] at hrun
            exact absurd hrun (by simp)

theorem search_no_error {n : Nat} {adj : AdjacencyMatrix} {p : Nat}
    (hadj : AdjOK n adj) (hsym : SymmAdj n adj) :
    ∀ (fuel : Nat) (sd : SolveData) (idx len : Nat),
      sdInv n adj sd → sumData sd.remaining_points < fuel →
      idx + p ≤ len + sd.selected_points.true_count →
      ∀ e, search sd idx len adj p fuel ≠ Except.error e := by
  intro fuel
  induction fuel with
  | zero => intro sd idx len _ hfuel _ e; omega
  | succ f ih =>
    intro sd idx len hsd hfuel hstack e
    rw [search]
    by_cases h1 : sd.selected_points.len ≥ p
    · rw [if_pos h1]
      simp
    · rw [if_neg h1]
      by_cases h2 : sd.remaining_points.len < p - sd.selected_points.len
      · rw [if_pos h2]
        simp
      · rw [if_neg h2]
        have hcountlt : sd.selected_points.true_count < p := by
          unfold PointVec.len at h1
          omega
        have hremnz : sd.remaining_points.true_count ≠ 0 := by
          unfold PointVec.len at h1 h2
          omega
        have hsome := next_isSome hsd.2.1 hremnz
        cases hnext : sd.remaining_points.next with
        | none => rw [hnext] at hsome; simp at hsome
        | some pt =>
          obtain ⟨hbit, hptn⟩ := next_some hsd.2.1 hnext
          simp only
          have h3 : idx < len := by omega
          rw [if_pos h3]
          obtain ⟨hchildInv, hchildCount⟩ := include_sdInv hadj hsym hsd hbit hptn
          have hsubfuel : sumData ((sd.remaining_points.remove pt).subtract
              (adj.data.getD pt emptyRow)) < f := by
            have hle := sumData_subtract_le (sd.remaining_points.remove pt)
              (adj.data.getD pt emptyRow) (remove_spec hsd.2.1 hptn).1.2.1
            have hlt := sumData_remove_lt hsd.2.1 hptn hbit
            omega
          have hexfuel : sumData (sd.remaining_points.remove pt) < f := by
            have hlt := sumData_remove_lt hsd.2.1 hptn hbit
            omega
          cases hinc : search ⟨sd.selected_points.insert pt,
              (sd.remaining_points.remove pt).subtract (adj.data.getD pt emptyRow)⟩
              (idx + 1) len adj p f with
          | error e2 =>
            exact absurd hinc (ih _ (idx + 1) len hchildInv hsubfuel
              (by rw [hchildCount]; omega) e2)
          | ok oinc =>
            cases oinc with
            | some result => simp
            | none =>
              simp only
              exact ih _ idx len (exclude_sdInv hsd hbit hptn) hexfuel
                (by simpa using hstack) e

theorem search_ne_none {n : Nat} {adj : AdjacencyMatrix} {p : Nat}
    (hadj : AdjOK n adj) (hsym : SymmAdj n adj) :
    ∀ (fuel : Nat) (sd : SolveData) (idx len : Nat),
      sdInv n adj sd → sumData sd.remaining_points < fuel →
      (∃ S : Finset Nat, (∀ j ∈ S, mem sd.remaining_points j) ∧
        S.card + sd.selected_points.true_count = p ∧
        ∀ i ∈ S, ∀ j ∈ S, i ≠ j → ¬adjMem adj i j) →
      search sd idx len adj p fuel ≠ Except.ok none := by
  intro fuel
  induction fuel with
  | zero => intro sd idx len _ hfuel _; omega
  | succ f ih =>
    intro sd idx len hsd hfuel hex
    obtain ⟨S, hSrem, hScard, hSfar⟩ := hex
    rw [search]
    by_cases h1 : sd.selected_points.len ≥ p
    · rw [if_pos h1]
      simp
    · rw [if_neg h1]
      have hcountlt : sd.selected_points.true_count < p := by
        unfold PointVec.len at h1
        omega
      have hSsubset : S ⊆ bitsFinset 32 sd.remaining_points.data := by
        intro j hj
        rw [mem_bitsFinset]
        have hm := hSrem j hj
        unfold mem at hm
        exact ⟨bitAt_lt_of_true (by norm_num) hm, hm⟩
      have hcardle : S.card ≤ sd.remaining_points.true_count := by
        rw [count_eq_card hsd.2.1]
        exact Finset.card_le_card hSsubset
      by_cases h2 : sd.remaining_points.len < p - sd.selected_points.len
      · unfold PointVec.len at h2
        omega
      · rw [if_neg h2]
        have hremnz : sd.remaining_points.true_count ≠ 0 := by
          unfold PointVec.len at h1 h2
          omega
        have hsome := next_isSome hsd.2.1 hremnz
        cases hnext : sd.remaining_points.next with
        | none => rw [hnext] at hsome; simp at hsome
        | some pt =>
          obtain ⟨hbit, hptn⟩ := next_some hsd.2.1 hnext
          simp only
          by_cases h3 : idx < len
          · rw [if_pos h3]
            obtain ⟨hchildInv, hchildCount⟩ := include_sdInv hadj hsym hsd hbit hptn
            obtain ⟨hremR, hremRChar, _⟩ := remove_spec hsd.2.1 hptn
            have hrowInv : Inv n (adj.data.getD pt emptyRow) := by
              apply hadj.2
              apply getD_mem_general
              rw [hadj.1]
              exact hptn
            obtain ⟨hremS, hremSChar⟩ := subtract_spec hremR hrowInv
            have hsubfuel : sumData ((sd.remaining_points.remove pt).subtract
                (adj.data.getD pt emptyRow)) < f := by
              have hle := sumData_subtract_le (sd.remaining_points.remove pt)
                (adj.data.getD pt emptyRow) hremR.2.1
              have hlt := sumData_remove_lt hsd.2.1 hptn hbit
              omega
            have hexfuel : sumData (sd.remaining_points.remove pt) < f := by
              have hlt := sumData_remove_lt hsd.2.1 hptn hbit
              omega
            by_cases hptS : pt ∈ S
            · have hSrem2 : ∀ j ∈ S.erase pt, mem ((sd.remaining_points.remove pt).subtract
                  (adj.data.getD pt emptyRow)) j := by
                intro j hj
                obtain ⟨hjne, hjS⟩ := Finset.mem_erase.mp hj
                unfold mem
                rw [hremSChar j, hremRChar j]
                have hmj := hSrem j hjS
                unfold mem at hmj
                have hnadj : ¬ adjMem adj pt j := hSfar pt hptS j hjS (fun h => hjne h.symm)
                unfold adjMem rowOf mem at hnadj
                have hb : bitAt 32 (adj.data.getD pt emptyRow).data j = false := by
                  cases hb2 : bitAt 32 (adj.data.getD pt emptyRow).data j with
                  | false => rfl
                  | true => exact absurd hb2 hnadj
                rw [hmj, hb]
                have : ¬ j = pt := fun h => hjne h
                simp [this]
              have hcard2 : (S.erase pt).card +
                  (sd.selected_points.insert pt).true_count = p := by
                rw [hchildCount, Finset.card_erase_of_mem hptS]
                have : 1 ≤ S.card := Finset.card_pos.mpr ⟨pt, hptS⟩
                omega
              have hfar2 : ∀ i ∈ S.erase pt, ∀ j ∈ S.erase pt, i ≠ j → ¬adjMem adj i j :=
                fun i hi j hj hij => hSfar i (Finset.mem_of_mem_erase hi) j
                  (Finset.mem_of_mem_erase hj) hij
              have hne := ih _ (idx + 1) len hchildInv hsubfuel
                ⟨S.erase pt, hSrem2, hcard2, hfar2⟩
              cases hinc : search ⟨sd.selected_points.insert pt,
                  (sd.remaining_points.remove pt).subtract (adj.data.getD pt emptyRow)⟩
                  (idx + 1) len adj p f with
              | error e => simp
              | ok oinc =>
                cases oinc with
                | some result => simp
                | none => exact absurd hinc hne
            · cases hinc : search ⟨sd.selected_points.insert pt,
                  (sd.remaining_points.remove pt).subtract (adj.data.getD pt emptyRow)⟩
                  (idx + 1) len adj p f with
              | error e => simp
              | ok oinc =>
                cases oinc with
                | some result => simp
                | none =>
                  simp only
                  have hSrem2 : ∀ j ∈ S, mem (sd.remaining_points.remove pt) j := by
                    intro j hj
                    unfold mem
                    rw [hremRChar j]
                    have hmj := hSrem j hj
                    unfold mem at hmj
                    have : ¬ j = pt := fun h => hptS (h ▸ hj)
                    rw [hmj]
                    simp [this]
                  exact ih _ idx len (exclude_sdInv hsd hbit hptn) hexfuel
                    ⟨S, hSrem2, by simpa using hScard, hSfar⟩
          · rw [if_neg h3]
            simp

theorem search_no_expect {n : Nat} {adj : AdjacencyMatrix} {p : Nat}
    (hlen : n ≤ adj.data.length) (hrows : ∀ row ∈ adj.data, Inv n row) :
    ∀ (fuel : Nat) (sd : SolveData) (idx len : Nat),
      Inv n sd.remaining_points →
      search sd idx len adj p fuel ≠ Except.error "At least one point remaining" := by
  intro fuel
  induction fuel with
  | zero =>
    intro sd idx len _ h
    rw [search] at h
    injection h with h2
    exact absurd h2 (by decide)
  | succ f ih =>
    intro sd idx len hrem h
    rw [search] at h
    by_cases h1 : sd.selected_points.len ≥ p
    · rw [if_pos h1] at h
      exact absurd h (by simp)
    · rw [if_neg h1] at h
      by_cases h2 : sd.remaining_points.len < p - sd.selected_points.len
      · rw [if_pos h2] at h
        exact absurd h (by simp)
      · rw [if_neg h2] at h
        have hremnz : sd.remaining_points.true_count ≠ 0 := by
          unfold PointVec.len at h1 h2
          omega
        have hsome := next_isSome hrem hremnz
        cases hnext : sd.remaining_points.next with
        | none => rw [hnext] at hsome; simp at hsome
        | some pt =>
          rw [hnext] at h
          obtain ⟨hbit, hptn⟩ := next_some hrem hnext
          simp only at h
          obtain ⟨hremR, _, _⟩ := remove_spec hrem hptn
          have hrowInv : Inv n (adj.data.getD pt emptyRow) := by
            apply hrows
            apply getD_mem_general
            omega
          obtain ⟨hremS, _⟩ := subtract_spec hremR hrowInv
          by_cases h3 : idx < len
          · rw [if_pos h3] at h
            cases hinc : search ⟨sd.selected_points.insert pt,
                (sd.remaining_points.remove pt).subtract (adj.data.getD pt emptyRow)⟩
                (idx + 1) len adj p f with
            | error e =>
              rw [hinc] at h
              simp only at h
              injection h with h4
              apply ih ⟨sd.selected_points.insert pt,
                (sd.remaining_points.remove pt).subtract (adj.data.getD pt emptyRow)⟩
                (idx + 1) len hremS
              rw [hinc, h4]
            | ok oinc =>
              cases oinc with
              | some result =>
                rw [hinc] at h
                exact absurd h (by simp)
              | none =>
                rw [hinc] at h
                simp only at h
                exact ih _ idx len hremR h
          · rw [if_neg h3] at h
            injection h with h4
            exact absurd h4 (by decide)

theorem xor_lt_two_pow {x y f : Nat} (hx : x < 2 ^ f) (hy : y < 2 ^ f) :
    x ^^^ y < 2 ^ f := by
  apply lt_two_pow_of_high_false
  intro i hi
  rw [Nat.testBit_xor, testBit_false_of_ge hx hi, testBit_false_of_ge hy hi]
  rfl

theorem countOnes_eq_filter_card {x : Nat} (hx : x < 2 ^ 32) :
    countOnes32 x = ((Finset.range 32).filter (fun b => x.testBit b = true)).card := by
  have hco : countOnes32 = goCount 32 := rfl
  rw [hco, goCount_eq_sum _ _ hx, Finset.card_filter]

theorem goWordBits_zero (f base : Nat) : goWordBits f base 0 = [] := by
  cases f <;> simp [goWordBits]

theorem goWordBits_spec : ∀ (f value base : Nat), value < 2 ^ 32 →
    ((Finset.range 32).filter (fun b => value.testBit b = true)).card ≤ f →
    (∀ j, j ∈ goWordBits f base value ↔
      ∃ b, b < 32 ∧ value.testBit b = true ∧ j = base + b) ∧
    (goWordBits f base value).length = countOnes32 value ∧
    (goWordBits f base value).Nodup := by
  intro f
  induction f with
  | zero =>
    intro value base hv hcard
    have hzero : value = 0 := by
      apply Nat.eq_of_testBit_eq
      intro i
      rw [Nat.zero_testBit]
      by_cases hi : i < 32
      · by_contra hb
        have hb2 : value.testBit i = true := by
          cases hb3 : value.testBit i with
          | false => exact absurd hb3 hb
          | true => rfl
        have : i ∈ (Finset.range 32).filter (fun b => value.testBit b = true) := by
          rw [Finset.mem_filter, Finset.mem_range]
          exact ⟨hi, hb2⟩
        have := Finset.card_pos.mpr ⟨i, this⟩
        omega
      · exact testBit_false_of_ge hv (by omega)
    subst hzero
    refine ⟨fun j => ?_, by rw [countOnes32_zero]; simp [goWordBits], by simp [goWordBits]⟩
    simp [goWordBits, Nat.zero_testBit]
  | succ f ih =>
    intro value base hv hcard
    by_cases h0 : value = 0
    · subst h0
      refine ⟨fun j => ?_, by rw [countOnes32_zero]; simp [goWordBits], by simp [goWordBits]⟩
      simp [goWordBits, Nat.zero_testBit]
    · have hpos : 0 < value := Nat.pos_of_ne_zero h0
      have hc : value.testBit (ctz32 value) = true := goCtz_testBit 32 value hpos hv
      have hclt : ctz32 value < 32 := goCtz_lt hpos hv
      have hmask : (2 : Nat) ^ (ctz32 value) < 2 ^ 32 :=
        Nat.pow_lt_pow_right (by norm_num) hclt
      have hv2 : value ^^^ 2 ^ ctz32 value < 2 ^ 32 := xor_lt_two_pow hv hmask
      have hbit2 : ∀ b, (value ^^^ 2 ^ ctz32 value).testBit b =
          (value.testBit b && !decide (ctz32 value = b)) := by
        intro b
        rw [Nat.testBit_xor, Nat.testBit_two_pow]
        by_cases hb : ctz32 value = b
        · rw [← hb, hc]
          simp
        · simp [hb]
      have hfilter : (Finset.range 32).filter
          (fun b => (value ^^^ 2 ^ ctz32 value).testBit b = true) =
          ((Finset.range 32).filter (fun b => value.testBit b = true)).erase
            (ctz32 value) := by
        apply Finset.ext
        intro b
        rw [Finset.mem_filter, Finset.mem_erase, Finset.mem_filter, hbit2 b]
        constructor
        · rintro ⟨hb1, hb2⟩
          obtain ⟨hb3, hb4⟩ := Bool.and_eq_true_iff.mp hb2
          refine ⟨?_, hb1, hb3⟩
          intro hbe
          rw [← hbe] at hb4
          simp at hb4
        · rintro ⟨hb1, hb2, hb3⟩
          refine ⟨hb2, ?_⟩
          rw [hb3]
          have : ¬ ctz32 value = b := fun hh => hb1 hh.symm
          simp [this]
      have hcmem : ctz32 value ∈ (Finset.range 32).filter
          (fun b => value.testBit b = true) := by
        rw [Finset.mem_filter, Finset.mem_range]
        exact ⟨hclt, hc⟩
      have hcard2 : ((Finset.range 32).filter
          (fun b => (value ^^^ 2 ^ ctz32 value).testBit b = true)).card ≤ f := by
        rw [hfilter, Finset.card_erase_of_mem hcmem]
        have := Finset.card_pos.mpr ⟨_, hcmem⟩
        omega
      obtain ⟨ihmem, ihlen, ihnodup⟩ := ih (value ^^^ 2 ^ ctz32 value) base hv2 hcard2
      have hunf : goWordBits (f + 1) base value =
          (base + ctz32 value) :: goWordBits f base (value ^^^ 2 ^ ctz32 value) := by
        rw [goWordBits]
        rw [if_neg h0]
      have hcnt : countOnes32 value = countOnes32 (value ^^^ 2 ^ ctz32 value) + 1 := by
        rw [countOnes_eq_filter_card hv, countOnes_eq_filter_card hv2, hfilter,
          Finset.card_erase_of_mem hcmem]
        have := Finset.card_pos.mpr ⟨_, hcmem⟩
        omega
      refine ⟨?_, ?_, ?_⟩
      · intro j
        rw [hunf, List.mem_cons, ihmem j]
        constructor
        · rintro (h | ⟨b, hb1, hb2, hb3⟩)
          · exact ⟨ctz32 value, hclt, hc, h⟩
          · rw [hbit2 b] at hb2
            exact ⟨b, hb1, (Bool.and_eq_true_iff.mp hb2).1, hb3⟩
        · rintro ⟨b, hb1, hb2, hb3⟩
          by_cases hbc : b = ctz32 value
          · left
            rw [hb3, hbc]
          · right
            refine ⟨b, hb1, ?_, hb3⟩
            rw [hbit2 b, hb2]
            have : ¬ ctz32 value = b := fun hh => hbc hh.symm
            simp [this]
      · rw [hunf, List.length_cons, ihlen, hcnt]
      · rw [hunf]
        refine List.nodup_cons.mpr ⟨?_, ihnodup⟩
        intro hmem2
        obtain ⟨b, _, hb2, hb3⟩ := (ihmem _).mp hmem2
        have hbeq : b = ctz32 value := by omega
        rw [hbeq, hbit2 (ctz32 value)] at hb2
        simp at hb2

theorem enumFrom_flatten_cons (w : Nat) (rest : List Nat) (s : Nat) :
    ((((List.enumFrom s (w :: rest)).filter (fun iv => iv.2 != 0)).map
      (fun iv => goWordBits 32 (32 * iv.1) iv.2)).flatten) =
    goWordBits 32 (32 * s) w ++
      ((((List.enumFrom (s + 1) rest).filter (fun iv => iv.2 != 0)).map
        (fun iv => goWordBits 32 (32 * iv.1) iv.2)).flatten) := by
  by_cases hw : w = 0
  · subst hw
    simp [List.enumFrom, goWordBits_zero]
  · simp [List.enumFrom, hw]

theorem ptv_aux : ∀ (words : List Nat), (∀ w ∈ words, w < 2 ^ 32) → ∀ s : Nat,
    (∀ j, j ∈ (((List.enumFrom s words).filter (fun iv => iv.2 != 0)).map
        (fun iv => goWordBits 32 (32 * iv.1) iv.2)).flatten ↔
      ∃ q, q < words.length ∧ ∃ b, b < 32 ∧ (words.getD q 0).testBit b = true ∧
        j = 32 * (s + q) + b) ∧
    ((((List.enumFrom s words).filter (fun iv => iv.2 != 0)).map
        (fun iv => goWordBits 32 (32 * iv.1) iv.2)).flatten).length =
      (words.map countOnes32).sum ∧
    ((((List.enumFrom s words).filter (fun iv => iv.2 != 0)).map
        (fun iv => goWordBits 32 (32 * iv.1) iv.2)).flatten).Nodup := by
  intro words
  induction words with
  | nil =>
    intro _ s
    refine ⟨fun j => ?_, by simp [List.enumFrom], by simp [List.enumFrom]⟩
    simp [List.enumFrom]
  | cons w rest ih =>
    intro hwords s
    have hw : w < 2 ^ 32 := hwords w (List.mem_cons_self _ _)
    have hrest : ∀ x ∈ rest, x < 2 ^ 32 := fun x hx => hwords x (List.mem_cons_of_mem _ hx)
    have hwcard : ((Finset.range 32).filter (fun b => w.testBit b = true)).card ≤ 32 := by
      calc ((Finset.range 32).filter (fun b => w.testBit b = true)).card ≤
          (Finset.range 32).card := Finset.card_filter_le _ _
      _ = 32 := Finset.card_range 32
    obtain ⟨hmw, hlw, hnw⟩ := goWordBits_spec 32 w (32 * s) hw hwcard
    obtain ⟨ihm, ihl, ihn⟩ := ih hrest (s + 1)
    rw [enumFrom_flatten_cons]
    refine ⟨?_, ?_, ?_⟩
    · intro j
      rw [List.mem_append, hmw j, ihm j]
      constructor
      · rintro (⟨b, hb, htb, hj⟩ | ⟨q, hq, b, hb, htb, hj⟩)
        · exact ⟨0, by simp, b, hb, by simpa using htb, by omega⟩
        · refine ⟨q + 1, by simpa using hq, b, hb, ?_, by omega⟩
          rw [List.getD_cons_succ]
          exact htb
      · rintro ⟨q, hq, b, hb, htb, hj⟩
        cases q with
        | zero =>
          left
          exact ⟨b, hb, by simpa using htb, by omega⟩
        | succ q =>
          right
          rw [List.getD_cons_succ] at htb
          exact ⟨q, by simpa using hq, b, hb, htb, by omega⟩
    · rw [List.length_append, hlw, ihl]
      simp
    · rw [List.nodup_append]
      refine ⟨hnw, ihn, ?_⟩
      intro a ha hmem2
      obtain ⟨b, hb, _, hj⟩ := (hmw a).mp ha
      obtain ⟨q, _, b2, _, _, hj2⟩ := (ihm a).mp hmem2
      omega

theorem pointVecToList_spec {n : Nat} {v : PointVec} (hv : Inv n v) :
    (∀ j, j ∈ pointVecToList v ↔ mem v j) ∧
    (pointVecToList v).length = v.true_count ∧ (pointVecToList v).Nodup := by
  unfold pointVecToList
  have henum : v.data.enum = List.enumFrom 0 v.data := rfl
  rw [henum]
  obtain ⟨hm, hl, hn⟩ := ptv_aux v.data hv.2.1 0
  refine ⟨?_, by rw [hl]; exact hv.2.2.1.symm, hn⟩
  intro j
  rw [hm j]
  unfold mem bitAt
  constructor
  · rintro ⟨q, hq, b, hb, htb, hj⟩
    have hdiv : j / 32 = q := by
      rw [hj]
      simp only [Nat.zero_add]
      rw [Nat.mul_add_div (by norm_num)]
      have : b / 32 = 0 := Nat.div_eq_of_lt hb
      omega
    have hmod : j % 32 = b := by
      rw [hj]
      simp only [Nat.zero_add]
      rw [Nat.mul_add_mod]
      exact Nat.mod_eq_of_lt hb
    rw [hdiv, hmod]
    exact htb
  · intro htb
    have hlt : j < 32 * v.data.length := bitAt_lt_of_true (by norm_num) htb
    refine ⟨j / 32, ?_, j % 32, Nat.mod_lt _ (by norm_num), htb, ?_⟩
    · rw [Nat.div_lt_iff_lt_mul (by norm_num : (0:Nat) < 32), Nat.mul_comm]
      exact hlt
    · simp only [Nat.zero_add]
      have := Nat.div_add_mod j 32
      omega

/-! ## Probe-level lemmas for p_solver -/

theorem probe_fuel (n : Nat) : sumData (SolveData.new n).remaining_points < solverFuel n := by
  unfold solverFuel SolveData.new
  simp only
  omega

theorem dm_rows_le {Q : Type} [LinearOrderedCommRing Q] (pts : List (Point Q)) :
    ∀ row ∈ distance_matrix pts, row.length ≤ pts.length :=
  fun row hrow => le_of_eq (distance_matrix_rows_length pts row hrow)

theorem searchProbe_sound {Q : Type} [LinearOrderedCommRing Q] (pts : List (Point Q))
    (t : Q) (p : Nat) (r : SolveData)
    (h : searchProbe pts.length (distance_matrix pts) t p = Except.ok (some r)) :
    Inv pts.length r.selected_points ∧ r.selected_points.true_count = p ∧
      ∀ i j, mem r.selected_points i → mem r.selected_points j → i ≠ j →
        t < pdist pts i j := by
  obtain ⟨hadj, hchar⟩ := adjacency_spec pts.length (distance_matrix pts) t (dm_rows_le pts)
  have hsym := adjacency_symm pts t
  obtain ⟨hinv, hcount, hfar⟩ := search_sound hadj hsym _ _ _ _ _
    (sdInv_new pts.length _) (Nat.zero_le p) h
  refine ⟨hinv, hcount, ?_⟩
  intro i j hi hj hij
  have hin : i < pts.length := mem_lt hinv hi
  have hjn : j < pts.length := mem_lt hinv hj
  have hnadj := hfar i j hi hj hij
  rw [hchar i j hin] at hnadj
  rw [distance_matrix_entry pts hin hjn] at hnadj
  have hrl : ((distance_matrix pts).getD i []).length = pts.length := by
    apply distance_matrix_rows_length
    apply getD_mem_general
    rw [distance_matrix_length]
    exact hin
  rw [hrl] at hnadj
  push_neg at hnadj
  exact hnadj hjn

theorem searchProbe_feasible_ne_none {Q : Type} [LinearOrderedCommRing Q]
    (pts : List (Point Q)) (t : Q) (p : Nat)
    (hfeas : ∃ S : Finset Nat, S ⊆ Finset.range pts.length ∧ S.card = p ∧
      ∀ i ∈ S, ∀ j ∈ S, i ≠ j → t < pdist pts i j) :
    searchProbe pts.length (distance_matrix pts) t p ≠ Except.ok none := by
  obtain ⟨hadj, hchar⟩ := adjacency_spec pts.length (distance_matrix pts) t (dm_rows_le pts)
  have hsym := adjacency_symm pts t
  obtain ⟨S, hSsub, hScard, hSfar⟩ := hfeas
  apply search_ne_none hadj hsym _ _ _ _ (sdInv_new pts.length _) (probe_fuel pts.length)
  refine ⟨S, ?_, ?_, ?_⟩
  · intro j hj
    have hjn : j < pts.length := Finset.mem_range.mp (hSsub hj)
    unfold SolveData.new mem
    simp only
    rw [bitAt_new_true]
    simp [hjn]
  · have : (SolveData.new pts.length).selected_points.true_count = 0 := rfl
    rw [this, hScard]
    omega
  · intro i hi j hj hij
    have hin : i < pts.length := Finset.mem_range.mp (hSsub hi)
    intro hmem2
    rw [hchar i j hin] at hmem2
    have hjn : j < pts.length := Finset.mem_range.mp (hSsub hj)
    rw [distance_matrix_entry pts hin hjn] at hmem2
    exact absurd hmem2.2 (not_le.mpr (hSfar i hi j hj hij))

theorem specFeasible_mono {Q : Type} [LinearOrderedCommRing Q] {pts : List (Point Q)}
    {p : Nat} {t1 t2 : Q} (h12 : t1 ≤ t2) (h : specFeasible pts p t2) :
    specFeasible pts p t1 := by
  obtain ⟨S, h1, h2, h3⟩ := h
  exact ⟨S, h1, h2, fun i hi j hj hij => lt_of_le_of_lt h12 (h3 i hi j hj hij)⟩

theorem searchProbe_infeasible {Q : Type} [LinearOrderedCommRing Q]
    (pts : List (Point Q)) (t : Q) (p : Nat)
    (h : searchProbe pts.length (distance_matrix pts) t p = Except.ok none) :
    ¬ specFeasible pts p t := by
  intro hfeas
  obtain ⟨S, h1, h2, h3⟩ := hfeas
  apply searchProbe_feasible_ne_none pts t p ⟨S, h1, h2, h3⟩ h

theorem sorted_getD_mono {Q : Type} [LinearOrderedCommRing Q] {l : List Q}
    (hs : List.Sorted (· ≤ ·) l) {i j : Nat} (hij : i ≤ j) (hj : j < l.length) :
    l.getD i 0 ≤ l.getD j 0 := by
  rcases Nat.lt_or_ge i j with hlt | hge
  · have hi : i < l.length := by omega
    have := @List.Sorted.rel_get_of_lt _ _ _ hs ⟨i, hi⟩ ⟨j, hj⟩ (by simpa using hlt)
    rw [List.getD_eq_getElem?_getD, List.getD_eq_getElem?_getD,
      List.getElem?_eq_getElem hi, List.getElem?_eq_getElem hj]
    simpa using this
  · have : i = j := by omega
    rw [this]

/-- Invariant induction over the binary-search loop of `p_solver`: the final
best result is either still empty, or it is a feasibility witness at some
probed candidate `possible[R-1]` such that every candidate from index `R`
on (if any is below the top) is infeasible. -/
theorem calibLoop_spec {Q : Type} [LinearOrderedCommRing Q] (pts : List (Point Q))
    (p : Nat) (possible : List Q) (hsorted : List.Sorted (· ≤ ·) possible) :
    ∀ (fuel left right : Nat) (best out : PointVec),
      left ≤ right → right ≤ possible.length - 1 →
      best.data.length = sectors pts.length →
      (best.true_count = 0 ∨
        (1 ≤ left ∧ Inv pts.length best ∧ best.true_count = p ∧
          ∀ i j, mem best i → mem best j → i ≠ j →
            possible.getD (left - 1) 0 < pdist pts i j)) →
      (right = possible.length - 1 ∨
        ∀ jj, right ≤ jj → jj < possible.length →
          ¬ specFeasible pts p (possible.getD jj 0)) →
      calibLoop pts.length (distance_matrix pts) possible p fuel left right best =
        Except.ok out →
      out.true_count = 0 ∨
        (∃ R, 1 ≤ R ∧ R ≤ possible.length - 1 ∧ Inv pts.length out ∧
          out.true_count = p ∧
          (∀ i j, mem out i → mem out j → i ≠ j →
            possible.getD (R - 1) 0 < pdist pts i j) ∧
          (R = possible.length - 1 ∨
            ∀ jj, R ≤ jj → jj < possible.length →
              ¬ specFeasible pts p (possible.getD jj 0))) := by
  intro fuel
  induction fuel with
  | zero => intro left right best out _ _ _ _ _ hrun; exact absurd hrun (by simp [calibLoop])
  | succ f ih =>
    intro left right best out hlr hrm hblen hbest hrc hrun
    rw [calibLoop] at hrun
    by_cases hcond : left < right
    · rw [if_pos hcond] at hrun
      unfold calibStep at hrun
      simp only at hrun
      cases hprobe : searchProbe pts.length (distance_matrix pts)
          (possible.getD ((left + right) / 2) 0) p with
      | error e =>
        rw [hprobe] at hrun
        exact absurd hrun (by simp)
      | ok o =>
        cases o with
        | some result =>
          rw [hprobe] at hrun
          simp only at hrun
          obtain ⟨hrinv, hrcount, hrfar⟩ := searchProbe_sound pts _ p result hprobe
          have hcpy : best.copy result.selected_points = result.selected_points := by
            apply copy_eq
            rw [hblen, hrinv.1]
          rw [hcpy] at hrun
          apply ih ((left + right) / 2 + 1) right result.selected_points out
            (by omega) hrm hrinv.1 _ hrc hrun
          refine Or.inr ⟨by omega, hrinv, hrcount, ?_⟩
          intro i j hi hj hij
          have : (left + right) / 2 + 1 - 1 = (left + right) / 2 := by omega
          rw [this]
          exact hrfar i j hi hj hij
        | none =>
          rw [hprobe] at hrun
          simp only at hrun
          have hinfeas := searchProbe_infeasible pts _ p hprobe
          apply ih left ((left + right) / 2) best out (by omega) (by omega) hblen hbest
            _ hrun
          right
          intro jj hjj1 hjj2 hfeas
          apply hinfeas
          exact specFeasible_mono (sorted_getD_mono hsorted hjj1 hjj2) hfeas
    · rw [if_neg hcond] at hrun
      injection hrun with h
      subst h
      rcases hbest with hz | ⟨hl1, hinv, hcnt, hfar⟩
      · exact Or.inl hz
      · refine Or.inr ⟨left, hl1, by omega, hinv, hcnt, hfar, ?_⟩
        have hleq : left = right := by omega
        rcases hrc with h1 | h2
        · exact Or.inl (by omega)
        · exact Or.inr (by rw [hleq]; exact h2)

theorem p_solver_eq_cons {Q : Type} [LinearOrderedCommRing Q] (pts : List (Point Q))
    (p : Nat) (fr : List Q) (rest : List (List Q))
    (hdm : distance_matrix pts = fr :: rest) :
    p_solver pts p =
      match calibLoop pts.length (fr :: rest) (List.insertionSort (· ≤ ·) fr) p
          ((List.insertionSort (· ≤ ·) fr).length + 1) 0
          ((List.insertionSort (· ≤ ·) fr).length - 1)
          (PointVec.new pts.length false) with
      | Except.error e => Except.error e
      | Except.ok best_result =>
        if best_result.true_count = 0 then Except.ok none
        else Except.ok (some (pointVecToList best_result)) := by
  unfold p_solver
  rw [hdm]

theorem insertionSort_length {Q : Type} [LinearOrderedCommRing Q] (l : List Q) :
    (List.insertionSort (· ≤ ·) l).length = l.length :=
  (List.perm_insertionSort (· ≤ ·) l).length_eq

/-- Full characterization of a successful `p_solver` run: the returned
selection is a feasibility witness at the candidate `possible[R-1]` for
some probed position `R`, and either `R` is the top index or every
candidate from `R` on is infeasible. -/
theorem p_solver_ok_some_spec {Q : Type} [LinearOrderedCommRing Q] (pts : List (Point Q))
    (p : Nat) (sel : List Nat)
    (h : p_solver pts p = Except.ok (some sel)) :
    ∃ R : Nat,
      1 ≤ R ∧
      R ≤ (List.insertionSort (· ≤ ·) ((distance_matrix pts).headD [])).length - 1 ∧
      sel.length = p ∧ sel.Nodup ∧ (∀ i ∈ sel, i < pts.length) ∧
      (∀ i ∈ sel, ∀ j ∈ sel, i ≠ j →
        (List.insertionSort (· ≤ ·) ((distance_matrix pts).headD [])).getD (R - 1) 0 <
          pdist pts i j) ∧
      specFeasible pts p
        ((List.insertionSort (· ≤ ·) ((distance_matrix pts).headD [])).getD (R - 1) 0) ∧
      (R = (List.insertionSort (· ≤ ·) ((distance_matrix pts).headD [])).length - 1 ∨
        ∀ jj, R ≤ jj →
          jj < (List.insertionSort (· ≤ ·) ((distance_matrix pts).headD [])).length →
          ¬ specFeasible pts p
            ((List.insertionSort (· ≤ ·) ((distance_matrix pts).headD [])).getD jj 0)) := by
  cases hdm : distance_matrix pts with
  | nil =>
    rw [p_solver] at h
    rw [hdm] at h
    exact absurd h (by simp)
  | cons fr rest =>
    rw [p_solver_eq_cons pts p fr rest hdm] at h
    simp only [List.headD_cons]
    cases hloop : calibLoop pts.length (fr :: rest) (List.insertionSort (· ≤ ·) fr) p
        ((List.insertionSort (· ≤ ·) fr).length + 1) 0
        ((List.insertionSort (· ≤ ·) fr).length - 1)
        (PointVec.new pts.length false) with
    | error e =>
      rw [hloop] at h
      exact absurd h (by simp)
    | ok best =>
      rw [hloop] at h
      simp only at h
      by_cases hz : best.true_count = 0
      · rw [if_pos hz] at h
        exact absurd h (by simp)
      · rw [if_neg hz] at h
        injection h with h2
        injection h2 with h3
        rw [← hdm] at hloop
        have hsorted : List.Sorted (· ≤ ·) (List.insertionSort (· ≤ ·) fr) :=
          List.sorted_insertionSort (· ≤ ·) fr
        have hres := calibLoop_spec pts p (List.insertionSort (· ≤ ·) fr) hsorted
          ((List.insertionSort (· ≤ ·) fr).length + 1) 0
          ((List.insertionSort (· ≤ ·) fr).length - 1)
          (PointVec.new pts.length false) best (Nat.zero_le _) (le_refl _)
          (new_data_length pts.length false) (Or.inl rfl) (Or.inl rfl) hloop
        rcases hres with hz2 | ⟨R, hR1, hR2, hinv, hcnt, hfar, hrc⟩
        · exact absurd hz2 hz
        · obtain ⟨hmemiff, hlenlist, hnodup⟩ := pointVecToList_spec hinv
          refine ⟨R, hR1, hR2, ?_, ?_, ?_, ?_, ?_, hrc⟩
          · rw [← h3, hlenlist, hcnt]
          · rw [← h3]; exact hnodup
          · intro i hi
            rw [← h3] at hi
            exact mem_lt hinv ((hmemiff i).mp hi)
          · intro i hi j hj hij
            rw [← h3] at hi hj
            exact hfar i j ((hmemiff i).mp hi) ((hmemiff j).mp hj) hij
          · refine ⟨(pointVecToList best).toFinset, ?_, ?_, ?_⟩
            · intro i hi
              rw [List.mem_toFinset] at hi
              exact Finset.mem_range.mpr (mem_lt hinv ((hmemiff i).mp hi))
            · rw [List.toFinset_card_of_nodup hnodup, hlenlist, hcnt]
            · intro i hi j hj hij
              rw [List.mem_toFinset] at hi hj
              exact hfar i j ((hmemiff i).mp hi) ((hmemiff j).mp hj) hij

/-- With `placements = 0` the very first success check of every probe fires
immediately, so the probe returns the fresh (empty-selection) root state. -/
theorem searchProbe_p0 {Q : Type} [LinearOrderedCommRing Q] (n : Nat)
    (dm : List (List Q)) (t : Q) :
    searchProbe n dm t 0 = Except.ok (some (SolveData.new n)) := by
  unfold searchProbe solverFuel
  rw [search]
  rw [if_pos (Nat.zero_le _)]

/-- With `placements = 0` the loop keeps copying empty witnesses into
`best_result`, which therefore finishes with cardinality zero. -/
theorem calibLoop_p0 {Q : Type} [LinearOrderedCommRing Q] (n : Nat) (dm : List (List Q))
    (possible : List Q) :
    ∀ (fuel left right : Nat) (best : PointVec),
      right - left < fuel → best.true_count = 0 → best.data.length = sectors n →
      ∃ out, calibLoop n dm possible 0 fuel left right best = Except.ok out ∧
        out.true_count = 0 := by
  intro fuel
  induction fuel with
  | zero => intro left right best h _ _; omega
  | succ f ih =>
    intro left right best hfuel hcnt hlen
    rw [calibLoop]
    by_cases hcond : left < right
    · rw [if_pos hcond]
      unfold calibStep
      simp only
      rw [searchProbe_p0]
      simp only
      have hcpy : best.copy (SolveData.new n).selected_points =
          (SolveData.new n).selected_points := by
        apply copy_eq
        rw [hlen]
        exact (new_data_length n false).symm
      rw [hcpy]
      exact ih ((left + right) / 2 + 1) right _ (by omega) rfl (new_data_length n false)
    · rw [if_neg hcond]
      exact ⟨best, rfl, hcnt⟩

/-- `p_solver` maps `placements = 0` on nonempty input to the `None`
no-solution signal. -/
theorem p_solver_p0 {Q : Type} [LinearOrderedCommRing Q] (pts : List (Point Q))
    (hne : pts ≠ []) : p_solver pts 0 = Except.ok none := by
  cases hdm : distance_matrix pts with
  | nil =>
    have hl := distance_matrix_length pts
    rw [hdm] at hl
    simp only [List.length_nil] at hl
    exact absurd (List.length_eq_zero.mp hl.symm) hne
  | cons fr rest =>
    rw [p_solver_eq_cons pts 0 fr rest hdm]
    obtain ⟨out, hout, hcnt⟩ := calibLoop_p0 pts.length (fr :: rest)
      (List.insertionSort (· ≤ ·) fr)
      ((List.insertionSort (· ≤ ·) fr).length + 1) 0
      ((List.insertionSort (· ≤ ·) fr).length - 1)
      (PointVec.new pts.length false) (by omega) rfl (new_data_length pts.length false)
    rw [hout]
    simp only
    rw [if_pos hcnt]

/-- Probe-level monotonicity: a feasibility-search success at threshold `t`
forces a success at any lower threshold `t2`. -/
theorem searchProbe_mono {Q : Type} [LinearOrderedCommRing Q] (pts : List (Point Q))
    (p : Nat) (t t2 : Q) (hle : t2 ≤ t)
    (h : isOkSome (searchProbe pts.length (distance_matrix pts) t p) = true) :
    isOkSome (searchProbe pts.length (distance_matrix pts) t2 p) = true := by
  by_cases hp : p = 0
  · subst hp
    rw [searchProbe_p0]
    rfl
  · cases hres : searchProbe pts.length (distance_matrix pts) t p with
    | error e => rw [hres] at h; exact absurd h (by simp [isOkSome])
    | ok o =>
      cases o with
      | none => rw [hres] at h; exact absurd h (by simp [isOkSome])
      | some r =>
        obtain ⟨hrinv, hrcount, hrfar⟩ := searchProbe_sound pts t p r hres
        obtain ⟨hadj, hchar⟩ :=
          adjacency_spec pts.length (distance_matrix pts) t (dm_rows_le pts)
        have hsym := adjacency_symm pts t
        have hstack := search_stack hadj hsym _ _ _ _ _ (sdInv_new pts.length _) hres
        have hzero : (SolveData.new pts.length).selected_points.true_count = 0 := rfl
        rw [hzero] at hstack
        have hpn : 1 + p ≤ pts.length + 0 := by
          rcases hstack with h1 | h1
          · omega
          · exact h1
        obtain ⟨hadj2, hchar2⟩ :=
          adjacency_spec pts.length (distance_matrix pts) t2 (dm_rows_le pts)
        have hsym2 := adjacency_symm pts t2
        cases hres2 : searchProbe pts.length (distance_matrix pts) t2 p with
        | error e =>
          exact absurd hres2 (search_no_error hadj2 hsym2 _ _ _ _
            (sdInv_new pts.length _) (probe_fuel pts.length)
            (by rw [hzero]; exact hpn) e)
        | ok o2 =>
          cases o2 with
          | some r2 => rfl
          | none =>
            exfalso
            apply search_ne_none hadj2 hsym2 _ _ _ _ (sdInv_new pts.length _)
              (probe_fuel pts.length) _ hres2
            refine ⟨bitsFinset 32 r.selected_points.data, ?_, ?_, ?_⟩
            · intro j hj
              obtain ⟨hjw, hjb⟩ := mem_bitsFinset.mp hj
              have hjn : j < pts.length := mem_lt hrinv hjb
              unfold SolveData.new mem
              simp only
              rw [bitAt_new_true]
              simp [hjn]
            · rw [hzero, ← count_eq_card hrinv, hrcount]
              omega
            · intro i hi j hj hij
              obtain ⟨hiw, hib⟩ := mem_bitsFinset.mp hi
              obtain ⟨hjw, hjb⟩ := mem_bitsFinset.mp hj
              have hin : i < pts.length := mem_lt hrinv hib
              have hjn : j < pts.length := mem_lt hrinv hjb
              intro hmem2
              rw [hchar2 i j hin] at hmem2
              rw [distance_matrix_entry pts hin hjn] at hmem2
              have hfar := hrfar i j hib hjb hij
              exact absurd hmem2.2 (not_le.mpr (lt_of_le_of_lt hle hfar))

end Core

namespace Naive

theorem map_range_ite_lor_eq_set (l : List Nat) (target m : Nat) (ht : target < l.length) :
    (List.range l.length).map
        (fun s => if s = target then l.getD s 0 ||| m else l.getD s 0) =
      l.set target (l.getD target 0 ||| m) := by
  apply List.ext_getElem
  · simp
  · intro i hi1 hi2
    rw [List.length_map, List.length_range] at hi1
    simp only [List.getElem_map, List.getElem_range]
    rw [List.getElem_set]
    by_cases h : i = target
    · subst h
      rw [if_pos rfl, if_pos rfl]
    · rw [if_neg h, if_neg (fun hh => h hh.symm)]
      rw [List.getD_eq_getElem?_getD, List.getElem?_eq_getElem hi1]
      rfl

/-- naive.rs `insert_and_copy` preserves the bitset invariant. -/
theorem insert_and_copy_spec {n : Nat} (hn : n ≤ 192) {v lhs : PointVec}
    (hv : Inv n v) (hl : Inv n lhs) {k : Nat} (hk : k < n) :
    Inv n (v.insert_and_copy lhs k) := by
  obtain ⟨hvlen, _, _, _⟩ := hv
  obtain ⟨hllen, hlwords, hlcount, hlhigh⟩ := hl
  have hk192 : k < 192 := by omega
  have ht : k / 64 < 3 := by omega
  have hb64 : k % 64 < 64 := Nat.mod_lt _ (by norm_num)
  have htl : k / 64 < lhs.data.length := by rw [hllen]; exact ht
  have hword : lhs.data.getD (k / 64) 0 < 2 ^ 64 := hlwords _ (Core.getD_mem htl)
  have hmask : (2 : Nat) ^ (k % 64) < 2 ^ 64 := Nat.pow_lt_pow_right (by norm_num) hb64
  unfold PointVec.insert_and_copy
  simp only
  rw [hvlen, ← hllen]
  rw [map_range_ite_lor_eq_set lhs.data (k / 64) (2 ^ (k % 64)) htl]
  rw [if_pos htl]
  unfold Inv
  refine ⟨?_, ?_, ?_, ?_⟩
  · simp only [List.length_set]
    exact hllen
  · intro x hx
    simp only at hx
    rcases List.mem_or_eq_of_mem_set hx with hmem | heq
    · exact hlwords x hmem
    · rw [heq]
      exact lor_lt_two_pow hword hmask
  · simp only
    have hsum := sum_map_set lhs.data (k / 64)
      (lhs.data.getD (k / 64) 0 ||| 2 ^ (k % 64)) countOnes64 htl
    have hy : countOnes64 (lhs.data.getD (k / 64) 0 ||| 2 ^ (k % 64)) =
        countOnes64 (lhs.data.getD (k / 64) 0) +
          (if (lhs.data.getD (k / 64) 0).testBit (k % 64) then 0 else 1) := by
      have hco : countOnes64 = goCount 64 := rfl
      rw [hco]
      exact goCount_lor_pow hword hb64
    by_cases hbit : (lhs.data.getD (k / 64) 0).testBit (k % 64)
    · rw [if_pos (land_pow_eq_iff.mpr hbit)]
      rw [if_pos hbit] at hy
      rw [hlcount]
      omega
    · have hne : ¬(lhs.data.getD (k / 64) 0 &&& 2 ^ (k % 64) = 2 ^ (k % 64)) :=
        fun hh => hbit (land_pow_eq_iff.mp hh)
      rw [if_neg hne]
      rw [if_neg (by exact hbit)] at hy
      rw [hlcount]
      omega
  · intro j hjw hnj
    simp only [List.length_set] at hjw
    unfold bitAt
    simp only
    rw [getD_set_lemma _ _ htl]
    have hjl : j < 64 * lhs.data.length := hjw
    have h1 : (lhs.data.getD (j / 64) 0).testBit (j % 64) = false := by
      have h2 := hlhigh j hjl hnj
      unfold bitAt at h2
      exact h2
    by_cases hsec : k / 64 = j / 64
    · rw [if_pos hsec, hsec, Nat.testBit_lor, h1, Nat.testBit_two_pow]
      have hne : ¬(k % 64 = j % 64) := by
        intro hmod
        have hkj : k = j := by omega
        omega
      simp [hne]
    · rw [if_neg hsec]
      exact h1

/-- naive.rs `subtract_and_copy` preserves the bitset invariant. -/
theorem subtract_and_copy_spec {n : Nat} {v lhs rhs : PointVec} (hv : Inv n v)
    (hl : Inv n lhs) (hr : Inv n rhs) : Inv n (v.subtract_and_copy lhs rhs) := by
  obtain ⟨hvlen, _, _, _⟩ := hv
  obtain ⟨hllen, hlwords, _, hlhigh⟩ := hl
  unfold PointVec.subtract_and_copy
  simp only
  rw [hvlen]
  unfold Inv
  refine ⟨?_, ?_, ?_, ?_⟩
  · simp
  · intro x hx
    simp only [List.mem_map, List.mem_range] at hx
    obtain ⟨i, hi, hfx⟩ := hx
    rw [← hfx]
    have hil : i < lhs.data.length := by rw [hllen]; exact hi
    exact land_lt_two_pow _ (hlwords _ (Core.getD_mem hil))
  · rfl
  · intro j hjw hnj
    simp only [List.length_map, List.length_range] at hjw
    unfold bitAt
    simp only
    rw [getD_map_range _ 0 3 (j / 64) (by omega)]
    have hjn3 : j / 64 < lhs.data.length := by rw [hllen]; omega
    have hword : lhs.data.getD (j / 64) 0 < 2 ^ 64 := hlwords _ (Core.getD_mem hjn3)
    have hu : u64max = 2 ^ 64 - 1 := rfl
    rw [hu, testBit_subword hword]
    have h1 : (lhs.data.getD (j / 64) 0).testBit (j % 64) = false := by
      have h2 := hlhigh j (by rw [hllen]; omega) hnj
      unfold bitAt at h2
      exact h2
    rw [h1]
    rfl

end Naive

/-! ## Claim theorems -/

/-- C1 counterexample: on four collinear points with `p = 2` the solver
returns the selection `[0, 3]` whose minimum pairwise squared distance is
121, while the brute-force optimum over all 2-subsets is 441 — the
calibration over the sorted first row does not find the largest feasible
candidate, refuting the brute-force agreement claim. -/
theorem C1_counterexample :
    Core.p_solver cexPoints 2 = Except.ok (some [0, 3]) ∧
    selMinPairDist cexPoints [0, 3] = some 121 ∧
    bruteForceOpt cexPoints 2 = some 441 ∧ (121 : Int) ≠ 441 := by
  refine ⟨by decide, by decide, by decide, by decide⟩

/-- C1 (amended): whenever `p_solver` returns a selection there is a probed
position `R` in the sorted first-row candidate list such that the selection
is a `p`-element feasibility witness strictly above candidate `R - 1`, and
either `R` is the top index (which the loop never probes) or every
candidate from `R` on is infeasible; agreement with the brute-force optimum
over all candidate distances is not guaranteed. -/
theorem C1_calibration (Q : Type) [LinearOrderedCommRing Q] (pts : List (Point Q))
    (p : Nat) (sel : List Nat)
    (h : Core.p_solver pts p = Except.ok (some sel)) :
    ∃ R : Nat,
      1 ≤ R ∧
      R ≤ (List.insertionSort (· ≤ ·) ((distance_matrix pts).headD [])).length - 1 ∧
      sel.length = p ∧ sel.Nodup ∧ (∀ i ∈ sel, i < pts.length) ∧
      (∀ i ∈ sel, ∀ j ∈ sel, i ≠ j →
        (List.insertionSort (· ≤ ·) ((distance_matrix pts).headD [])).getD (R - 1) 0 <
          pdist pts i j) ∧
      specFeasible pts p
        ((List.insertionSort (· ≤ ·) ((distance_matrix pts).headD [])).getD (R - 1) 0) ∧
      (R = (List.insertionSort (· ≤ ·) ((distance_matrix pts).headD [])).length - 1 ∨
        ∀ jj, R ≤ jj →
          jj < (List.insertionSort (· ≤ ·) ((distance_matrix pts).headD [])).length →
          ¬ specFeasible pts p
            ((List.insertionSort (· ≤ ·) ((distance_matrix pts).headD [])).getD jj 0)) :=
  Core.p_solver_ok_some_spec pts p sel h

/-- C1 witness: the amended calibration characterization instantiated on
the concrete counterexample input. -/
theorem C1_witness :
    ∃ R : Nat,
      1 ≤ R ∧
      R ≤ (List.insertionSort (· ≤ ·) ((distance_matrix cexPoints).headD [])).length - 1 ∧
      ([0, 3] : List Nat).length = 2 ∧ ([0, 3] : List Nat).Nodup ∧
      (∀ i ∈ ([0, 3] : List Nat), i < cexPoints.length) ∧
      (∀ i ∈ ([0, 3] : List Nat), ∀ j ∈ ([0, 3] : List Nat), i ≠ j →
        (List.insertionSort (· ≤ ·) ((distance_matrix cexPoints).headD [])).getD (R - 1) 0 <
          pdist cexPoints i j) ∧
      specFeasible cexPoints 2
        ((List.insertionSort (· ≤ ·) ((distance_matrix cexPoints).headD [])).getD (R - 1) 0) ∧
      (R = (List.insertionSort (· ≤ ·) ((distance_matrix cexPoints).headD [])).length - 1 ∨
        ∀ jj, R ≤ jj →
          jj < (List.insertionSort (· ≤ ·) ((distance_matrix cexPoints).headD [])).length →
          ¬ specFeasible cexPoints 2
            ((List.insertionSort (· ≤ ·) ((distance_matrix cexPoints).headD [])).getD jj 0)) :=
  C1_calibration Int cexPoints 2 [0, 3] (by decide)

/-- C2: whenever `p_solver` returns a selection, it consists of exactly `p`
distinct valid indices into the input, and there is a candidate threshold
`t` in the sorted candidate list with every pairwise squared distance among
the selected points strictly above `t`; no partial selection is returned. -/
theorem C2_selection_sound (Q : Type) [LinearOrderedCommRing Q] (pts : List (Point Q))
    (p : Nat) (sel : List Nat)
    (h : Core.p_solver pts p = Except.ok (some sel)) :
    sel.length = p ∧ sel.Nodup ∧ (∀ i ∈ sel, i < pts.length) ∧
    ∃ t ∈ List.insertionSort (· ≤ ·) ((distance_matrix pts).headD []),
      ∀ i ∈ sel, ∀ j ∈ sel, i ≠ j → t < pdist pts i j := by
  obtain ⟨R, hR1, hR2, hlen, hnd, hmem, hfar, hfeas, hrc⟩ :=
    Core.p_solver_ok_some_spec pts p sel h
  refine ⟨hlen, hnd, hmem,
    ⟨(List.insertionSort (· ≤ ·) ((distance_matrix pts).headD [])).getD (R - 1) 0,
      ?_, hfar⟩⟩
  apply Core.getD_mem_general
  omega

/-- C2 witness: the soundness statement instantiated on the concrete
four-point input with `p = 2`. -/
theorem C2_witness :
    ([0, 3] : List Nat).length = 2 ∧ ([0, 3] : List Nat).Nodup ∧
    (∀ i ∈ ([0, 3] : List Nat), i < cexPoints.length) ∧
    ∃ t ∈ List.insertionSort (· ≤ ·) ((distance_matrix cexPoints).headD []),
      ∀ i ∈ ([0, 3] : List Nat), ∀ j ∈ ([0, 3] : List Nat), i ≠ j →
        t < pdist cexPoints i j :=
  C2_selection_sound Int cexPoints 2 [0, 3] (by decide)

/-- C3: feasibility is monotone in the threshold — a success of the
feasibility search on the adjacency graph built at threshold `t` forces a
success at every threshold `t2 ≤ t`. -/
theorem C3_threshold_monotone (Q : Type) [LinearOrderedCommRing Q]
    (pts : List (Point Q)) (p : Nat) (t t2 : Q) (hle : t2 ≤ t)
    (h : Core.isOkSome (Core.searchProbe pts.length (distance_matrix pts) t p) = true) :
    Core.isOkSome (Core.searchProbe pts.length (distance_matrix pts) t2 p) = true :=
  Core.searchProbe_mono pts p t t2 hle h

/-- C3 witness: monotonicity instantiated on the four-point input, from a
successful probe at threshold 120 down to threshold 50. -/
theorem C3_witness :
    ((50 : Int) ≤ 120 ∧
      Core.isOkSome (Core.searchProbe cexPoints.length (distance_matrix cexPoints)
        120 2) = true) ∧
    Core.isOkSome (Core.searchProbe cexPoints.length (distance_matrix cexPoints)
      50 2) = true :=
  ⟨⟨by decide, by decide⟩, C3_threshold_monotone Int cexPoints 2 120 50 (by decide) (by decide)⟩

/-- C4 counterexample: in lib.rs the probe directions are reversed — on the
two-point input the midpoint probe of `solve_p_dispersion` succeeds, yet
the loop state keeps `left_index = 0` (instead of moving it past the
midpoint 2) and moves `right_index` down to `target - 1 = 1`. -/
theorem C4_counterexample :
    Lib.libStep 2 (distance_matrix twoPoints)
        (List.insertionSort (· ≤ ·) (distance_matrix twoPoints).flatten) 1 0 4 0 none =
      Except.ok (0, 1, 1, some ⟨1, [0], [], [[0, 1], [0, 1]]⟩) ∧
    Core.isOkSome (Lib.search (Lib.searchFuel 2)
      (Lib.SolveData.new 2 (distance_matrix twoPoints)
        ((List.insertionSort (· ≤ ·)
          (distance_matrix twoPoints).flatten).getD ((0 + 4) / 2) 0) 1)) = true ∧
    (0 : Nat) ≠ (0 + 4) / 2 + 1 ∧ (1 : Nat) ≠ (0 + 4) / 2 := by
  refine ⟨by decide, by decide, by decide, by decide⟩

/-- C4 (amended): the core.rs calibration probes behave as specified — a
feasible midpoint probe moves the lower bound past the midpoint and
remembers the witness as the current best, an infeasible one moves the
upper bound down to the midpoint — while the lib.rs loop applies the two
updates to the opposite bounds. -/
theorem C4_probe_step (Q : Type) [LinearOrderedCommRing Q] (pts : List (Point Q))
    (possible : List Q) (p l r : Nat) (best : Core.PointVec) :
    (∀ result, Core.searchProbe pts.length (distance_matrix pts)
        (possible.getD ((l + r) / 2) 0) p = Except.ok (some result) →
      Core.calibStep pts.length (distance_matrix pts) possible p l r best =
        Except.ok ((l + r) / 2 + 1, r, best.copy result.selected_points)) ∧
    (Core.searchProbe pts.length (distance_matrix pts)
        (possible.getD ((l + r) / 2) 0) p = Except.ok none →
      Core.calibStep pts.length (distance_matrix pts) possible p l r best =
        Except.ok (l, (l + r) / 2, best)) := by
  constructor
  · intro result hres
    unfold Core.calibStep
    simp only
    rw [hres]
  · intro hres
    unfold Core.calibStep
    simp only
    rw [hres]

/-- C4 witness: the infeasible branch of the core.rs probe step on the
four-point input with `p = 3`, where the midpoint candidate 100 is
infeasible and the upper bound moves down to the midpoint. -/
theorem C4_witness :
    Core.searchProbe cexPoints.length (distance_matrix cexPoints)
        ((List.insertionSort (· ≤ ·) ((distance_matrix cexPoints).headD [])).getD
          ((0 + 3) / 2) 0) 3 = Except.ok none ∧
    Core.calibStep cexPoints.length (distance_matrix cexPoints)
        (List.insertionSort (· ≤ ·) ((distance_matrix cexPoints).headD [])) 3 0 3
        (Core.PointVec.new 4 false) =
      Except.ok (0, (0 + 3) / 2, Core.PointVec.new 4 false) :=
  ⟨by decide, (C4_probe_step Int cexPoints (List.insertionSort (· ≤ ·)
      ((distance_matrix cexPoints).headD [])) 3 0 3 (Core.PointVec.new 4 false)).2
    (by decide)⟩

/-- C5: on the empty point sequence both solver entry points panic instead
of returning an ordinary InvalidInput result value — core.rs with the
`expect` message of the missing first matrix row, lib.rs with an
out-of-bounds index — so the empty-input precondition is not checked at
the start. -/
theorem C5_empty_input_panics :
    Core.p_solver ([] : List (Point Int)) 3 =
      Except.error "Distance matrix must not be empty" ∧
    Lib.solve_p_dispersion ([] : List (Point Int)) 3 =
      Except.error "index out of bounds" := by
  refine ⟨by decide, by decide⟩

/-- C6: with exactly one input point and `p = 2`, core.rs returns the
ordinary no-solution signal as claimed, but lib.rs panics with an
out-of-bounds index instead of returning Unsolvable or InvalidInput. -/
theorem C6_single_point :
    Core.p_solver onePoint 2 = Except.ok none ∧
    Lib.solve_p_dispersion onePoint 2 = Except.error "index out of bounds" := by
  refine ⟨by decide, by decide⟩

/-- C7: the arena bound fails inside the claimed range `1 ≤ p ≤ n` — on two
distinct points with `p = n = 2` the feasibility search needs `p + 1 = 3`
simultaneous slots but the arena holds only `n = 2`, and the modelled
`assert!(idx < data.len())` fires. -/
theorem C7_arena_assert_fails :
    Core.p_solver twoPoints 2 =
      Except.error "assertion failed: idx < data.len" := by
  decide

/-- C8: whenever the success check and the pruning check of the feasibility
search both fall through, the remaining set is non-empty and its first set
bit exists, so `search` never produces the
`expect("At least one point remaining")` panic — for any adjacency matrix
with enough well-formed rows and a well-formed remaining set. -/
theorem C8_expect_unreachable {n : Nat} {adj : Core.AdjacencyMatrix} {p : Nat}
    (hlen : n ≤ adj.data.length) (hrows : ∀ row ∈ adj.data, Core.Inv n row)
    (fuel : Nat) (sd : Core.SolveData) (idx len : Nat)
    (hrem : Core.Inv n sd.remaining_points) :
    Core.search sd idx len adj p fuel ≠
      Except.error "At least one point remaining" :=
  Core.search_no_expect hlen hrows fuel sd idx len hrem

/-- C8 witness: the unreachability statement instantiated on the concrete
two-point adjacency matrix at threshold 0 with the fresh root state. -/
theorem C8_witness :
    (2 ≤ (Core.AdjacencyMatrix.new 2 (distance_matrix twoPoints) (0 : Int)).data.length ∧
      (∀ row ∈ (Core.AdjacencyMatrix.new 2 (distance_matrix twoPoints) (0 : Int)).data,
        Core.Inv 2 row) ∧
      Core.Inv 2 (Core.SolveData.new 2).remaining_points) ∧
    Core.search (Core.SolveData.new 2) 1 2
        (Core.AdjacencyMatrix.new 2 (distance_matrix twoPoints) (0 : Int)) 1
        (Core.solverFuel 2) ≠ Except.error "At least one point remaining" :=
  ⟨⟨by decide, by decide, by decide⟩,
    @C8_expect_unreachable 2 (Core.AdjacencyMatrix.new 2 (distance_matrix twoPoints)
        (0 : Int)) 1 (by decide) (by decide) (Core.solverFuel 2)
      (Core.SolveData.new 2) 1 2 (by decide)⟩

/-- C9: every modelled `PointVec` operation of core.rs (`new`, `reset`,
`insert`, `remove`, `subtract`, `copy`) and naive.rs (`insert_and_copy`,
`subtract_and_copy`) preserves the bitset invariant: the cardinality
counter equals the number of set bits and every bit at a position at or
beyond the capacity is zero. -/
theorem C9_pointvec_invariants (n : Nat) (hn : n ≤ 192) :
    Core.Inv n (Core.PointVec.new n false) ∧
    Core.Inv n (Core.PointVec.new n true) ∧
    (∀ v : Core.PointVec, v.data.length = Core.sectors n → ∀ fill,
      Core.Inv n (v.reset n fill)) ∧
    (∀ v : Core.PointVec, ∀ k, Core.Inv n v → k < n → Core.Inv n (v.insert k)) ∧
    (∀ v : Core.PointVec, ∀ k, Core.Inv n v → k < n → Core.Inv n (v.remove k)) ∧
    (∀ v r : Core.PointVec, Core.Inv n v → Core.Inv n r → Core.Inv n (v.subtract r)) ∧
    (∀ v src : Core.PointVec, v.data.length = src.data.length → Core.Inv n src →
      Core.Inv n (v.copy src)) ∧
    (∀ v lhs : Naive.PointVec, ∀ k, Naive.Inv n v → Naive.Inv n lhs → k < n →
      Naive.Inv n (v.insert_and_copy lhs k)) ∧
    (∀ v lhs rhs : Naive.PointVec, Naive.Inv n v → Naive.Inv n lhs →
      Naive.Inv n rhs → Naive.Inv n (v.subtract_and_copy lhs rhs)) := by
  refine ⟨Core.Inv_new_false n, Core.Inv_new_true n, ?_, ?_, ?_, ?_, ?_, ?_, ?_⟩
  · intro v hlen fill
    rw [Core.reset_eq_new v n fill hlen]
    cases fill
    · exact Core.Inv_new_false n
    · exact Core.Inv_new_true n
  · intro v k hv hk
    exact (Core.insert_spec hv hk).1
  · intro v k hv hk
    exact (Core.remove_spec hv hk).1
  · intro v r hv hr
    exact (Core.subtract_spec hv hr).1
  · intro v src hlen hsrc
    rw [Core.copy_eq v src hlen]
    exact hsrc
  · intro v lhs k hv hl hk
    exact Naive.insert_and_copy_spec hn hv hl hk
  · intro v lhs rhs hv hl hr
    exact Naive.subtract_and_copy_spec hv hl hr

/-- C9 witness: the `insert` conjunct of the invariant-preservation theorem
evaluated at capacity 2 on the fresh empty bitset. -/
theorem C9_witness : (2 ≤ 192) ∧ Core.Inv 2 ((Core.PointVec.new 2 false).insert 1) :=
  ⟨by decide, (C9_pointvec_invariants 2 (by decide)).2.2.2.1
    (Core.PointVec.new 2 false) 1 (by decide) (by decide)⟩

/-- C10: for every non-empty input, `p_solver` with `placements = 0`
returns the `None` no-solution signal: every probe immediately succeeds
with the empty selection, `best_result` keeps cardinality zero, and the
final emptiness check maps it to `None`. -/
theorem C10_zero_placements (Q : Type) [LinearOrderedCommRing Q]
    (pts : List (Point Q)) (hne : pts ≠ []) :
    Core.p_solver pts 0 = Except.ok none :=
  Core.p_solver_p0 pts hne

/-- C10 witness: the zero-placements result on the concrete one-point
input. -/
theorem C10_witness : Core.p_solver onePoint 0 = Except.ok none :=
  C10_zero_placements Int onePoint (by decide)
